import Mathlib

/-!
# MultiGet: chunk planner, chunk task, write-back, worker pool, command line

A shallow embedding of `MultiGet.cpp`, `ThreadPool.cpp` and
`CommandLineParams.cpp`, and the properties of the design checked against it.

* The planner of `main` is given in three readings: in exact integer arithmetic (`num`,
  `chunkNum`, `plan`), on 32-bit `int` where an overflowing operation has no result
  (`num32`, `chunkNum32`, `plan32`), and on 32-bit `int` with wrap-around (`numWrap`,
  `chunkNumWrap`, `planWrap`). `/` on `int` is `Int.tdiv` (truncation toward zero).
* The output file is a list of bytes; `seekp` + `<<` is `writeChunk`.
* A fetch (`getContent`) is a sequence of per-attempt results.
* The worker pool is a step function over `(tasks, terminate, workers)`.
* `ShutDown` and the destructor act on the `joinable()` flags of the threads.
* The map `_params` is a list of key/value pairs.
-/

namespace MultiGet

/-! ## Constants of `MultiGet.cpp` -/

/-- Models `static const int CHUNK_SIZE = 1 * 1024 * 1024;` -/
def CHUNK_SIZE : Int := 1 * 1024 * 1024

/-- Models `static const int CHUNK_NUM = 4;` -/
def CHUNK_NUM : Int := 4

/-- Models `static const int THREAD_NUM = 4;` -/
def THREAD_NUM : Int := 4

/-- Models `static const int RETRY_NUM = 3;` -/
def RETRY_NUM : Nat := 3

/-! ## The chunk planner inside `main`, read in exact integer arithmetic

These are the values the `int` expressions of `main` denote when no operation leaves
`int`; `plan32` and `planWrap` below carry the same expressions out on 32-bit `int`. -/

/-- Exact value of `(file_size + chunk_size - 1) / chunk_size`, without a width. -/
def num (file_size chunk_size : Int) : Int :=
  Int.tdiv (file_size + chunk_size - 1) chunk_size

/-- Exact value of `(chunk_num <= 0) ? num : min(num, chunk_num)`. -/
def chunkNum (file_size chunk_size chunk_num : Int) : Int :=
  if chunk_num ≤ 0 then num file_size chunk_size
  else min (num file_size chunk_size) chunk_num

/-- Exact value of `i * chunk_size`, the `offset` of a task. -/
def chunkOffset (i chunk_size : Int) : Int := i * chunk_size

/-- Exact value of the `length` a task computes; `chunk_num` is the effective count the
lambda captured. -/
def chunkLength (i chunk_size chunk_num file_size : Int) : Int :=
  if i = chunk_num - 1 then
    if chunk_size * chunk_num > file_size then file_size - chunk_size * i
    else chunk_size
  else chunk_size

/-- Exact `(offset, length)` of the task enqueued at loop index `i`. -/
def chunkRange (file_size chunk_size chunk_num : Int) (i : Nat) : Int × Int :=
  (chunkOffset i chunk_size, chunkLength i chunk_size chunk_num file_size)

/-- The ranges of `for (int i = 0; i < chunk_num; i++)` over the effective chunk count, in
submission order, in exact arithmetic. It is the plan of `main` as long as no `int`
operation overflows (`plan32_exact`). -/
def plan (file_size chunk_size chunk_num : Int) : List (Int × Int) :=
  (List.range (chunkNum file_size chunk_size chunk_num).toNat).map
    (chunkRange file_size chunk_size (chunkNum file_size chunk_size chunk_num))

/-- Exact value of the inclusive byte range `getContent` puts in the request:
`to_string(offset)`, `"-"`, `to_string(offset + length - 1)`. -/
def getContentRange (offset length : Int) : Int × Int :=
  (offset, offset + length - 1)

/-! ## The planner as the design document words it -/

/-- Natural chunk count as the design states it: `N = ceil(totalSize / chunkSize)`,
the ceiling of the exact quotient. -/
def specN (totalSize chunkSize : Int) : Int :=
  Int.ceil ((totalSize : ℚ) / (chunkSize : ℚ))

/-- Effective chunk count as the design states it. -/
def specC (totalSize chunkSize requestedChunkCount : Int) : Int :=
  if requestedChunkCount ≤ 0 then specN totalSize chunkSize
  else min (specN totalSize chunkSize) requestedChunkCount

/-- Length of range `i` as the design states it. -/
def specLength (totalSize chunkSize C : Int) (i : Nat) : Int :=
  if (i : Int) + 1 = C then
    if chunkSize * C > totalSize then totalSize - chunkSize * (C - 1) else chunkSize
  else chunkSize

/-- The plan as the design states it: `C` ranges, range `i` at offset `i * chunkSize`. -/
def specPlan (totalSize chunkSize requestedChunkCount : Int) : List (Int × Int) :=
  (List.range (specC totalSize chunkSize requestedChunkCount).toNat).map fun (i : Nat) =>
    ((i : Int) * chunkSize,
      specLength totalSize chunkSize (specC totalSize chunkSize requestedChunkCount) i)

end MultiGet

namespace MultiGet

/-! ## The output file and the locked write -/

/-- One `uint8_t`. -/
abbrev Byte := Fin 256

/-- The locked write of a task, `fs.seekp(offset); fs << content;`, on the file as a byte
sequence. Bytes at `offset ..` are overwritten; a write that starts past the end leaves a
gap of zero bytes; writing no bytes leaves the file as it is. -/
def writeChunk (fs : List Byte) (offset : Nat) (content : List Byte) : List Byte :=
  if content.isEmpty then fs
  else
    fs.take offset ++ List.replicate (offset - fs.length) 0 ++ content
      ++ fs.drop (offset + content.length)

/-- A pending write: the `offset` of a task and the bytes it fetched. -/
abbrev ChunkWrite := Nat × List Byte

/-- Apply one pending write to the file. -/
def applyWrite (fs : List Byte) (w : ChunkWrite) : List Byte :=
  writeChunk fs w.1 w.2

/-- The writes of the tasks of `main` in submission order, task `i` holding the bytes
`data i`; the offset is the one the task computes. -/
def chunkWrites (file_size chunk_size chunk_num : Int) (data : Nat → List Byte) :
    List ChunkWrite :=
  (List.range (chunkNum file_size chunk_size chunk_num).toNat).map
    fun (i : Nat) => ((chunkOffset i chunk_size).toNat, data i)

end MultiGet
namespace MultiGet

/-! ## The chunk task (the lambda `main` enqueues) -/

/-- What a task does to the outside, in order. -/
inductive Effect where
  /-- One call `getContent(url, offset, length)`. -/
  | getContent (offset length : Int)
  /-- One locked `fs.seekp(offset); fs << content;`. -/
  | write (offset : Int) (content : List Byte)
  deriving DecidableEq

/-- The state the tasks share: the flag `downloadSucceeded`, the output file `fs`, and the
log of effects so far. -/
structure World where
  downloadSucceeded : Bool
  fs : List Byte
  log : List Effect
  deriving DecidableEq

/-- State when `main` starts enqueuing: `downloadSucceeded = true`, file opened empty. -/
def World.init : World := { downloadSucceeded := true, fs := [], log := [] }

/-- The loop `while (retry > 0) { ... retry--; }` followed by `downloadSucceeded = false`.
`fetch a` is the result of attempt number `a` (from 0): `some content` for a non-null
chunk, `none` for `nullptr`. A non-null chunk is written and the task returns. -/
def retryLoop (fetch : Nat → Option (List Byte)) (offset length : Int) :
    Nat → Nat → World → World
  | 0, _, w => { w with downloadSucceeded := false }
  | retry + 1, attempt, w =>
    match fetch attempt with
    | some content =>
      { w with
        fs := writeChunk w.fs offset.toNat content
        log := w.log ++ [Effect.getContent offset length, Effect.write offset content] }
    | none =>
      retryLoop fetch offset length retry (attempt + 1)
        { w with log := w.log ++ [Effect.getContent offset length] }

/-- The task of loop index `i`: `int retry = RETRY_NUM;`, its offset and length, the loop. -/
def chunkTask (file_size chunk_size chunk_num : Int) (i : Nat)
    (fetch : Nat → Option (List Byte)) (w : World) : World :=
  retryLoop fetch (chunkOffset i chunk_size) (chunkLength i chunk_size chunk_num file_size)
    RETRY_NUM 0 w

/-- Number of `getContent` calls in a log. -/
def attempts (log : List Effect) : Nat :=
  (log.filter fun e => match e with
    | Effect.getContent _ _ => true
    | Effect.write _ _ => false).length

/-- The writes in a log, in order. -/
def writesOf (log : List Effect) : List (Int × List Byte) :=
  log.filterMap fun e => match e with
    | Effect.getContent _ _ => none
    | Effect.write offset content => some (offset, content)

/-- Run the tasks with the loop indices in `order` one after another; `fetch i` is the
attempt sequence of task `i`. -/
def runTasks (file_size chunk_size chunk_num : Int) (fetch : Nat → Nat → Option (List Byte))
    (order : List Nat) (w : World) : World :=
  order.foldl (fun w i => chunkTask file_size chunk_size chunk_num i (fetch i) w) w

/-! ## Sample inputs -/

/-- Sample fetched bytes for the plan of a 5-byte file in 2-byte chunks. -/
def sampleData (i : Nat) : List Byte :=
  if i = 0 then [10, 11] else if i = 1 then [20, 21] else [30]

/-- Attempt sequence that fails twice and then succeeds with two bytes. -/
def sampleFetch (a : Nat) : Option (List Byte) :=
  if a = 2 then some [7, 8] else none

/-- Attempt sequences for two tasks: task 0 succeeds at once, task 1 never does. -/
def sampleFetchAll (t : Nat) (_a : Nat) : Option (List Byte) :=
  if t = 0 then some [1, 2] else none

end MultiGet
namespace MultiGet

/-! ## The planner on 32-bit `int`

Each `int` operation yields its exact result when that is representable, and `none`
(signed overflow) when it is not. -/

/-- Smallest `int`. -/
def INT_MIN : Int := -2147483648

/-- Largest `int`. -/
def INT_MAX : Int := 2147483647

/-- The result of an `int` operation whose exact value is `x`. -/
def int32 (x : Int) : Option Int :=
  if INT_MIN ≤ x ∧ x ≤ INT_MAX then some x else none

/-- Models `int num = (file_size + chunk_size - 1) / chunk_size;`, which the compiler reads as
`((file_size + chunk_size) - 1) / chunk_size`. -/
def num32 (file_size chunk_size : Int) : Option Int :=
  (int32 (file_size + chunk_size)).bind fun a =>
  (int32 (a - 1)).bind fun b =>
  if chunk_size = 0 then none else int32 (Int.tdiv b chunk_size)

/-- Models `chunk_num = (chunk_num <= 0) ? num : min(num, chunk_num);`. -/
def chunkNum32 (file_size chunk_size chunk_num : Int) : Option Int :=
  (num32 file_size chunk_size).bind fun n =>
  some (if chunk_num ≤ 0 then n else min n chunk_num)

/-- The `length` of a task: `chunk_num - 1`, `chunk_size * chunk_num` and
`file_size - chunk_size * i` are evaluated as the source does, the last two only on the
branches that reach them. -/
def chunkLength32 (i chunk_size chunk_num file_size : Int) : Option Int :=
  (int32 (chunk_num - 1)).bind fun last =>
  if i = last then
    (int32 (chunk_size * chunk_num)).bind fun covered =>
    if covered > file_size then
      (int32 (chunk_size * i)).bind fun before => int32 (file_size - before)
    else some chunk_size
  else some chunk_size

/-- The range end of `getContent`: `offset + length - 1`, read as `(offset + length) - 1`. -/
def getContentRange32 (offset length : Int) : Option (Int × Int) :=
  (int32 (offset + length)).bind fun a =>
  (int32 (a - 1)).bind fun b => some (offset, b)

/-- One task: `i * chunk_size`, the length, and the range `getContent` builds from them. -/
def chunkRange32 (file_size chunk_size chunk_num : Int) (i : Nat) : Option (Int × Int) :=
  (int32 ((i : Int) * chunk_size)).bind fun offset =>
  (chunkLength32 i chunk_size chunk_num file_size).bind fun length =>
  (getContentRange32 offset length).bind fun _ => some (offset, length)

/-- All results, when every one is present. -/
def allSome {α : Type} : List (Option α) → Option (List α)
  | [] => some []
  | x :: xs => x.bind fun a => (allSome xs).bind fun as => some (a :: as)

/-- The plan computed on `int`: `none` when some operation overflows. -/
def plan32 (file_size chunk_size chunk_num : Int) : Option (List (Int × Int)) :=
  (chunkNum32 file_size chunk_size chunk_num).bind fun C =>
  allSome ((List.range C.toNat).map (chunkRange32 file_size chunk_size C))

/-! ## The planner on wrapping 32-bit `int`

The same operations with two's-complement wrap-around, as a compiled binary carries them
out. -/

/-- The `int` a wrapping operation leaves for the exact value `x`: `x` modulo `2^32`, taken
in `[-2^31, 2^31)`. -/
def wrap32 (x : Int) : Int :=
  (x + 2147483648) % 4294967296 - 2147483648

/-- Models `int num = (file_size + chunk_size - 1) / chunk_size;` with wrapping operations. -/
def numWrap (file_size chunk_size : Int) : Int :=
  wrap32 (Int.tdiv (wrap32 (wrap32 (file_size + chunk_size) - 1)) chunk_size)

/-- Models `chunk_num = (chunk_num <= 0) ? num : min(num, chunk_num);` on `numWrap`. -/
def chunkNumWrap (file_size chunk_size chunk_num : Int) : Int :=
  if chunk_num ≤ 0 then numWrap file_size chunk_size
  else min (numWrap file_size chunk_size) chunk_num

/-- The `length` of a task with wrapping operations. -/
def chunkLengthWrap (i chunk_size chunk_num file_size : Int) : Int :=
  if i = wrap32 (chunk_num - 1) then
    if wrap32 (chunk_size * chunk_num) > file_size then
      wrap32 (file_size - wrap32 (chunk_size * i))
    else chunk_size
  else chunk_size

/-- The `(offset, length)` of the task of loop index `i` with wrapping operations. -/
def chunkRangeWrap (file_size chunk_size chunk_num : Int) (i : Nat) : Int × Int :=
  (wrap32 ((i : Int) * chunk_size), chunkLengthWrap i chunk_size chunk_num file_size)

/-- The range of `getContent` with wrapping operations. -/
def getContentRangeWrap (offset length : Int) : Int × Int :=
  (offset, wrap32 (wrap32 (offset + length) - 1))

/-- The ranges of the tasks `main` enqueues when every `int` operation wraps. -/
def planWrap (file_size chunk_size chunk_num : Int) : List (Int × Int) :=
  (List.range (chunkNumWrap file_size chunk_size chunk_num).toNat).map
    (chunkRangeWrap file_size chunk_size (chunkNumWrap file_size chunk_size chunk_num))

end MultiGet
namespace ThreadPool

/-! ## The worker pool as a step function (`ThreadPool.cpp`)

Tasks are opaque closures; the model names each by a number. One step is one critical
section under `tasksMutex`, or the return of a task. -/

/-- Where a worker thread is inside `Invoke`. -/
inductive WorkerState where
  /-- In `condition.wait`, or about to take the lock. -/
  | Idle
  /-- Inside `task()` for the task it popped. -/
  | Executing (task : Nat)
  /-- Returned from `Invoke`. -/
  | Terminated
  deriving DecidableEq

/-- The shared state: the queue `tasks`, the flag `terminate`, one state per thread of
`threadPool`, and the record `ran` of the tasks whose `task()` call has returned. -/
structure PoolState where
  tasks : List Nat
  terminate : Bool
  workers : List WorkerState
  ran : List Nat
  deriving DecidableEq

/-- Models `ThreadPool::ThreadPool(int threads)`: `terminate(false)`, and one thread per
iteration of `for (int i = 0; i < threads; i++)`. -/
def construct (threads : Int) : PoolState :=
  { tasks := [], terminate := false,
    workers := List.replicate threads.toNat WorkerState.Idle, ran := [] }

/-- The atomic steps of the pool. -/
inductive Event where
  /-- Models `Enqueue(f)`: `tasks.push(f)` under the lock. -/
  | Enqueue (task : Nat)
  /-- Models `ShutDown()`: `terminate = true` under the lock (it then waits in `join`). -/
  | ShutDown
  /-- Models `Invoke`, worker `i`: the wait is over, the queue is not empty, the front
  task is popped. -/
  | InvokePop (i : Nat)
  /-- Models `Invoke`, worker `i`: `task()` returns. -/
  | InvokeTaskDone (i : Nat)
  /-- Models `Invoke`, worker `i`: `if (terminate && tasks.empty()) return;`. -/
  | InvokeReturn (i : Nat)
  deriving DecidableEq

/-- One step; `none` when the step is not enabled in the state. -/
def step (s : PoolState) : Event → Option PoolState
  | Event.Enqueue t => some { s with tasks := s.tasks ++ [t] }
  | Event.ShutDown => some { s with terminate := true }
  | Event.InvokePop i =>
    match s.workers[i]?, s.tasks with
    | some WorkerState.Idle, t :: rest =>
      some { s with tasks := rest, workers := s.workers.set i (WorkerState.Executing t) }
    | _, _ => none
  | Event.InvokeTaskDone i =>
    match s.workers[i]? with
    | some (WorkerState.Executing t) =>
      some { s with workers := s.workers.set i WorkerState.Idle, ran := s.ran ++ [t] }
    | _ => none
  | Event.InvokeReturn i =>
    match s.workers[i]? with
    | some WorkerState.Idle =>
      if s.terminate && s.tasks.isEmpty then
        some { s with workers := s.workers.set i WorkerState.Terminated }
      else none
    | _ => none

/-- Run a sequence of steps. -/
def run (s : PoolState) : List Event → Option PoolState
  | [] => some s
  | e :: es => (step s e).bind fun s' => run s' es

/-- No `Enqueue` comes after a `ShutDown`; the flag says whether one was seen. -/
def enqueueAllowed : Bool → List Event → Bool
  | _, [] => true
  | shut, Event.Enqueue _ :: es => !shut && enqueueAllowed shut es
  | _, Event.ShutDown :: es => enqueueAllowed true es
  | shut, _ :: es => enqueueAllowed shut es

/-- Every `Enqueue` of the sequence is made before `ShutDown`. -/
def enqueueBeforeShutDown (es : List Event) : Bool := enqueueAllowed false es

/-- The tasks enqueued by a sequence of steps, in order. -/
def enqueued : List Event → List Nat
  | [] => []
  | Event.Enqueue t :: es => t :: enqueued es
  | _ :: es => enqueued es

/-- The task a worker is executing, if any. -/
def executing : WorkerState → Option Nat
  | WorkerState.Executing t => some t
  | _ => none

/-- The tasks that were enqueued and have not been dropped: run, being run, or queued. -/
def accounted (s : PoolState) : List Nat :=
  s.ran ++ s.workers.filterMap executing ++ s.tasks

/-- True when `ShutDown` has returned: `terminate` is set and every thread of `threadPool` has been
joined, so has returned from `Invoke`. -/
def shutDownReturned (s : PoolState) : Bool :=
  s.terminate && s.workers.all fun w => decide (w = WorkerState.Terminated)

/-- Invariant: once some worker has returned from `Invoke`, `terminate` is set and the
queue is empty. -/
def DrainInv (s : PoolState) : Prop :=
  WorkerState.Terminated ∈ s.workers → s.terminate = true ∧ s.tasks = []

/-- A run on a pool without workers: one task is enqueued, then `ShutDown`. -/
def stuckRun : List Event := [Event.Enqueue 7, Event.ShutDown]

/-- The state after `stuckRun` from `construct 0`. -/
def stuckState : PoolState :=
  { tasks := [7], terminate := true, workers := [], ran := [] }

/-- A run on a pool of one worker: a task is enqueued, `ShutDown` is called, the worker
pops the task, runs it, and returns. -/
def drainRun : List Event :=
  [Event.Enqueue 7, Event.ShutDown, Event.InvokePop 0, Event.InvokeTaskDone 0,
    Event.InvokeReturn 0]

/-- The state after `drainRun` from `construct 1`. -/
def drainState : PoolState :=
  { tasks := [], terminate := true, workers := [WorkerState.Terminated], ran := [7] }

end ThreadPool
namespace ThreadPool

/-! ## `ShutDown` and the destructor on thread handles

Each `std::thread` of `threadPool` is its `joinable()` flag. `join()` on a joinable thread
returns once the thread has finished and leaves it not joinable; `join()` on a thread that
is not joinable throws `std::system_error`. -/

/-- The exception `std::thread::join` throws on a thread that is not joinable. -/
inductive Error where
  | system_error
  deriving DecidableEq

/-- The object as `ShutDown` and the destructor see it. -/
structure Handles where
  threadPool : List Bool
  terminate : Bool
  stopped : Bool
  deriving DecidableEq

/-- Models `ThreadPool::ThreadPool(int threads)`: started threads are joinable. -/
def Handles.construct (threads : Int) : Handles :=
  { threadPool := List.replicate threads.toNat true, terminate := false, stopped := false }

/-- Models `thread.join()`. -/
def join (joinable : Bool) : Except Error Bool :=
  if joinable then Except.ok false else Except.error Error.system_error

/-- Models `for (std::thread& thread : threadPool) { thread.join(); }`; the first `join` that
throws ends the loop. -/
def joinAll : List Bool → Except Error (List Bool)
  | [] => Except.ok []
  | t :: ts =>
    match join t with
    | Except.error e => Except.error e
    | Except.ok t' =>
      match joinAll ts with
      | Except.error e => Except.error e
      | Except.ok ts' => Except.ok (t' :: ts')

/-- Models `ThreadPool::ShutDown()`: set `terminate`, join every thread of `threadPool`, evaluate
`threadPool.empty()` (a query whose result is dropped: the vector keeps its threads), set
`stopped`. -/
def ShutDown (p : Handles) : Except Error Handles :=
  match joinAll p.threadPool with
  | Except.error e => Except.error e
  | Except.ok ts =>
    let _isEmpty := ts.isEmpty
    Except.ok { threadPool := ts, terminate := true, stopped := true }

/-- Models `ThreadPool::~ThreadPool()`: `if (!stopped) { ShutDown(); }`. -/
def destructor (p : Handles) : Except Error Handles :=
  if !p.stopped then ShutDown p else Except.ok p

/-- Two calls of `ShutDown` in a row. -/
def shutDownTwice (p : Handles) : Except Error Handles :=
  match ShutDown p with
  | Except.error e => Except.error e
  | Except.ok p' => ShutDown p'

end ThreadPool
namespace CommandLineParams

/-! ## `CommandLineParams.cpp` and the URL check of `main` -/

/-- The member `std::map<std::string, std::string> _params`, as key/value pairs with at
most one pair per key. -/
abbrev Params := List (String × String)

/-- Models `_params[key] = value;`. -/
def assign (m : Params) (key value : String) : Params :=
  (key, value) :: m.filter fun kv => kv.1 != key

/-- Models `argv[i][0]`, `none` for the empty string (whose first `char` is the terminator). -/
def firstChar (s : String) : Option Char := s.data.head?

/-- Models `argv[i] + 1`: the string without its first character. -/
def dropFirst (s : String) : String := String.mk s.data.tail

/-- Models `argv[i][0] == '-' || argv[i][0] == '/'`. -/
def isOption (s : String) : Bool :=
  firstChar s == some '-' || firstChar s == some '/'

/-- The body of `for (int i = 1; i < argc; i++)` over the remaining arguments, then the
final `if (param != NULL)`. `param` is the option waiting for its value. -/
def parseLoop : List String → Option String → Params → Params
  | [], some param, m => assign m param "true"
  | [], none, m => m
  | arg :: rest, param, m =>
    if isOption arg then
      match param with
      | some p => parseLoop rest (some (dropFirst arg)) (assign m p "true")
      | none => parseLoop rest (some (dropFirst arg)) m
    else
      match param with
      | some p => parseLoop rest none (assign m p arg)
      | none => parseLoop rest none m

/-- Models `CommandLineParams::CommandLineParams(int argc, const char *argv[])`, with
`argc = argv.length`. -/
def construct (argv : List String) : Params :=
  if argv.length < 2 then [] else parseLoop (argv.drop 1) none []

/-- Models `CommandLineParams::ContainsKey`. -/
def ContainsKey (m : Params) (param : String) : Bool :=
  (m.lookup param).isSome

/-- Models `CommandLineParams::operator[]`: the value, or `NULL` (`none`). -/
def get (m : Params) (param : String) : Option String :=
  if ContainsKey m param then m.lookup param else none

/-- The start of `main`: parse, `if (!params.ContainsKey("url")) { usage(); return -1; }`,
and later `const char* url = params["url"];`. The result is the exit code `-1` of the
missing-URL branch, or the URL `main` goes on to use. -/
def mainUrl (argv : List String) : Except Int (Option String) :=
  if !ContainsKey (construct argv) "url" then Except.error (-1)
  else Except.ok (get (construct argv) "url")

/-- The invocation the usage text prescribes, `MultiGet -u url`. -/
def documentedArgv (url : String) : List String := ["MultiGet", "-u", url]

end CommandLineParams
namespace MultiGet

/-! ## Planner facts -/

theorem num_bounds (file_size chunk_size : Int) (hf : 0 ≤ file_size) (hc : 1 ≤ chunk_size) :
    0 ≤ num file_size chunk_size ∧
    file_size ≤ chunk_size * num file_size chunk_size ∧
    chunk_size * num file_size chunk_size < file_size + chunk_size := by
  have hq : num file_size chunk_size = (file_size + chunk_size - 1) / chunk_size := by
    unfold num
    exact Int.tdiv_eq_ediv (by omega) (by omega)
  have hpos : 0 < chunk_size := by omega
  have h1 := Int.ediv_add_emod (file_size + chunk_size - 1) chunk_size
  have h2 := Int.emod_nonneg (file_size + chunk_size - 1) (ne_of_gt hpos)
  have h3 := Int.emod_lt_of_pos (file_size + chunk_size - 1) hpos
  have h4 : 0 ≤ (file_size + chunk_size - 1) / chunk_size :=
    Int.ediv_nonneg (by omega) (by omega)
  rw [hq]
  refine ⟨h4, ?_, ?_⟩ <;> omega

theorem chunkNum_bounds (file_size chunk_size chunk_num : Int)
    (hf : 0 ≤ file_size) (hc : 1 ≤ chunk_size) :
    0 ≤ chunkNum file_size chunk_size chunk_num ∧
    chunkNum file_size chunk_size chunk_num ≤ num file_size chunk_size := by
  obtain ⟨h0, -, -⟩ := num_bounds file_size chunk_size hf hc
  unfold chunkNum
  split
  · exact ⟨h0, le_refl _⟩
  · refine ⟨le_min h0 (by omega), min_le_left _ _⟩

/-- Below the effective count, a whole chunk fits: `(i + 1) * chunk_size` is at most
`chunk_size * C`, and is below `file_size + chunk_size`. -/
theorem mul_succ_le (chunk_size C : Int) (i : Nat) (hc : 1 ≤ chunk_size)
    (hi : (i : Int) + 1 ≤ C) : chunk_size * ((i : Int) + 1) ≤ chunk_size * C :=
  mul_le_mul_of_nonneg_left hi (by omega)

/-- When the cap is below the natural count the capped span is inside the file. -/
theorem capped_inside (file_size chunk_size chunk_num : Int)
    (hf : 0 ≤ file_size) (hc : 1 ≤ chunk_size)
    (hlt : chunkNum file_size chunk_size chunk_num < num file_size chunk_size) :
    chunk_size * chunkNum file_size chunk_size chunk_num < file_size := by
  obtain ⟨-, -, h3⟩ := num_bounds file_size chunk_size hf hc
  have h : chunk_size * (chunkNum file_size chunk_size chunk_num + 1)
      ≤ chunk_size * num file_size chunk_size :=
    mul_le_mul_of_nonneg_left (by omega) (by omega)
  rw [mul_add, mul_one] at h
  omega

/-- Every range but the last has length `chunk_size`. -/
theorem chunkLength_inner (file_size chunk_size C : Int) (i : Nat) (hi : (i : Int) + 1 < C) :
    chunkLength i chunk_size C file_size = chunk_size := by
  unfold chunkLength
  rw [if_neg (by omega)]

/-- The last range. -/
theorem chunkLength_last (file_size chunk_size C : Int) (i : Nat) (hi : (i : Int) + 1 = C) :
    chunkLength i chunk_size C file_size =
      if chunk_size * C > file_size then file_size - chunk_size * i else chunk_size := by
  unfold chunkLength
  rw [if_pos (by omega)]

/-- The facts about one planned range that the planner properties rest on. -/
theorem chunkRange_facts (file_size chunk_size chunk_num : Int)
    (hf : 0 ≤ file_size) (hc : 1 ≤ chunk_size) (i : Nat)
    (hi : (i : Int) < chunkNum file_size chunk_size chunk_num) :
    1 ≤ chunkLength i chunk_size (chunkNum file_size chunk_size chunk_num) file_size ∧
    chunkLength i chunk_size (chunkNum file_size chunk_size chunk_num) file_size ≤ chunk_size ∧
    (i : Int) * chunk_size
      + chunkLength i chunk_size (chunkNum file_size chunk_size chunk_num) file_size
      ≤ file_size := by
  obtain ⟨hn0, hn1, hn2⟩ := num_bounds file_size chunk_size hf hc
  obtain ⟨hC0, hC1⟩ := chunkNum_bounds file_size chunk_size chunk_num hf hc
  generalize hCdef : chunkNum file_size chunk_size chunk_num = C at *
  have hcap : C < num file_size chunk_size → chunk_size * C < file_size := by
    intro h
    have := capped_inside file_size chunk_size chunk_num hf hc (by rw [hCdef]; exact h)
    rwa [hCdef] at this
  have hmul := mul_succ_le chunk_size C i hc (by omega)
  rw [mul_add, mul_one] at hmul
  have hcomm : (i : Int) * chunk_size = chunk_size * i := mul_comm _ _
  by_cases hlast : (i : Int) + 1 = C
  · rw [chunkLength_last file_size chunk_size C i hlast]
    have hCi : chunk_size * C = chunk_size * i + chunk_size := by
      rw [← hlast, mul_add, mul_one]
    by_cases hover : chunk_size * C > file_size
    · rw [if_pos hover]
      have hCn : C = num file_size chunk_size := by
        by_contra hne
        have := hcap (lt_of_le_of_ne hC1 hne)
        omega
      rw [hCn] at hCi
      refine ⟨?_, ?_, ?_⟩ <;> omega
    · rw [if_neg hover]
      refine ⟨?_, ?_, ?_⟩ <;> omega
  · rw [chunkLength_inner file_size chunk_size C i (by omega)]
    have h2 := mul_succ_le chunk_size C (i + 1) hc (by push_cast; omega)
    push_cast at h2
    rw [mul_add, mul_add, mul_one] at h2
    by_cases hCn : C < num file_size chunk_size
    · have := hcap hCn
      refine ⟨?_, ?_, ?_⟩ <;> omega
    · have hCe : C = num file_size chunk_size := by omega
      rw [hCe] at h2
      refine ⟨?_, ?_, ?_⟩ <;> omega

end MultiGet
namespace MultiGet

/-- Entry `i` of the plan is the range of loop index `i`, for `i` below the effective count. -/
theorem plan_getElem?_some (file_size chunk_size chunk_num : Int) (i : Nat) (r : Int × Int)
    (h : (plan file_size chunk_size chunk_num)[i]? = some r) :
    (i : Int) < chunkNum file_size chunk_size chunk_num ∧
    r = chunkRange file_size chunk_size (chunkNum file_size chunk_size chunk_num) i := by
  unfold plan at h
  rw [List.getElem?_map] at h
  rcases hr : (List.range (chunkNum file_size chunk_size chunk_num).toNat)[i]? with _ | j
  · rw [hr] at h; simp at h
  · rw [hr] at h
    have hj := List.getElem?_eq_some.mp hr
    obtain ⟨hlen, hval⟩ := hj
    rw [List.length_range] at hlen
    rw [List.getElem_range] at hval
    subst hval
    simp only [Option.map_some'] at h
    exact ⟨by omega, (Option.some.inj h).symm⟩

theorem plan_length (file_size chunk_size chunk_num : Int) :
    (plan file_size chunk_size chunk_num).length
      = (chunkNum file_size chunk_size chunk_num).toNat := by
  simp [plan]

/-- The first `k` ranges, all before the last one, have total length `k * chunk_size`. -/
theorem sum_inner_lengths (file_size chunk_size C : Int) (k : Nat) (hk : (k : Int) < C) :
    ((List.range k).map (fun i : Nat => chunkLength i chunk_size C file_size)).sum
      = (k : Int) * chunk_size := by
  induction k with
  | zero => simp
  | succ k ih =>
    rw [List.range_succ, List.map_append, List.sum_append, ih (by push_cast at hk; omega)]
    simp only [List.map_cons, List.map_nil, List.sum_cons, List.sum_nil, add_zero]
    rw [chunkLength_inner file_size chunk_size C k (by push_cast at hk; omega)]
    push_cast
    ring

theorem plan_lengths_sum (file_size chunk_size chunk_num : Int)
    (hf : 0 ≤ file_size) (hc : 1 ≤ chunk_size) :
    ((plan file_size chunk_size chunk_num).map Prod.snd).sum
      = min file_size (chunk_size * chunkNum file_size chunk_size chunk_num) := by
  obtain ⟨hC0, -⟩ := chunkNum_bounds file_size chunk_size chunk_num hf hc
  have hmap : (plan file_size chunk_size chunk_num).map Prod.snd
      = (List.range (chunkNum file_size chunk_size chunk_num).toNat).map
          (fun i : Nat =>
            chunkLength i chunk_size (chunkNum file_size chunk_size chunk_num) file_size) := by
    simp [plan, chunkRange, Function.comp_def]
  rw [hmap]
  rcases hn : (chunkNum file_size chunk_size chunk_num).toNat with _ | k
  · have h0 : chunkNum file_size chunk_size chunk_num = 0 := by omega
    rw [h0]
    simp [hf]
  · have hCk : chunkNum file_size chunk_size chunk_num = (k : Int) + 1 := by omega
    have hfacts := chunkRange_facts file_size chunk_size chunk_num hf hc k (by omega)
    rw [List.range_succ, List.map_append, List.sum_append,
      sum_inner_lengths file_size chunk_size _ k (by omega)]
    simp only [List.map_cons, List.map_nil, List.sum_cons, List.sum_nil, add_zero]
    rw [chunkLength_last file_size chunk_size _ k (by omega)] at hfacts ⊢
    have hmul : chunk_size * ((k : Int) + 1) = chunk_size * k + chunk_size := by ring
    have hcomm : (k : Int) * chunk_size = chunk_size * k := mul_comm _ _
    rw [hCk] at hfacts ⊢
    by_cases hover : chunk_size * ((k : Int) + 1) > file_size
    · rw [if_pos hover]
      rw [min_eq_left (le_of_lt hover)]
      omega
    · rw [if_neg hover]
      rw [min_eq_right (not_lt.mp hover)]
      omega

/-- The truncating quotient of `main` is the ceiling of the exact quotient. -/
theorem num_eq_specN (file_size chunk_size : Int) (hf : 0 ≤ file_size) (hc : 1 ≤ chunk_size) :
    num file_size chunk_size = specN file_size chunk_size := by
  obtain ⟨-, h1, h2⟩ := num_bounds file_size chunk_size hf hc
  have hpos : (0 : ℚ) < (chunk_size : ℚ) := by exact_mod_cast (by omega : (0 : Int) < chunk_size)
  have h1q : (file_size : ℚ) ≤ (chunk_size : ℚ) * (num file_size chunk_size : ℚ) := by
    exact_mod_cast h1
  have h2q : (chunk_size : ℚ) * (num file_size chunk_size : ℚ)
      < (file_size : ℚ) + (chunk_size : ℚ) := by exact_mod_cast h2
  unfold specN
  symm
  rw [Int.ceil_eq_iff]
  constructor
  · rw [lt_div_iff₀ hpos]
    nlinarith
  · rw [div_le_iff₀ hpos]
    nlinarith

theorem chunkNum_eq_specC (file_size chunk_size chunk_num : Int)
    (hf : 0 ≤ file_size) (hc : 1 ≤ chunk_size) :
    chunkNum file_size chunk_size chunk_num = specC file_size chunk_size chunk_num := by
  unfold chunkNum specC
  rw [num_eq_specN file_size chunk_size hf hc]

theorem chunkLength_eq_specLength (file_size chunk_size C : Int) (i : Nat) :
    chunkLength i chunk_size C file_size = specLength file_size chunk_size C i := by
  unfold chunkLength specLength
  by_cases h : (i : Int) = C - 1
  · have h' : (i : Int) + 1 = C := by omega
    rw [if_pos h, if_pos h', h]
  · have h' : ¬ (i : Int) + 1 = C := by omega
    rw [if_neg h, if_neg h']

end MultiGet
namespace MultiGet

/-- For `i < j` below the effective count, range `i` ends no later than range `j` starts. -/
theorem chunk_end_le_start (file_size chunk_size C : Int) (hc : 1 ≤ chunk_size) (i j : Nat)
    (hij : i < j) (hj : (j : Int) < C) :
    (i : Int) * chunk_size + chunkLength i chunk_size C file_size ≤ (j : Int) * chunk_size := by
  rw [chunkLength_inner file_size chunk_size C i (by omega)]
  have h : ((i : Int) + 1) * chunk_size ≤ (j : Int) * chunk_size :=
    mul_le_mul_of_nonneg_right (by omega) (by omega)
  rw [add_mul, one_mul] at h
  exact h

/-- Coverage of the plan in exact arithmetic: the ranges start at offset 0, are contiguous,
are pairwise non-overlapping as byte intervals, and their lengths sum to
`min(file_size, chunk_size * C)` for the effective chunk count `C`. -/
theorem plan_coverage_exact (file_size chunk_size chunk_num : Int)
    (hf : 0 ≤ file_size) (hc : 1 ≤ chunk_size) :
    (∀ r, (plan file_size chunk_size chunk_num)[0]? = some r → r.1 = 0) ∧
    (∀ (i : Nat) (r r' : Int × Int),
      (plan file_size chunk_size chunk_num)[i]? = some r →
      (plan file_size chunk_size chunk_num)[i + 1]? = some r' → r'.1 = r.1 + r.2) ∧
    (∀ (i j : Nat) (r r' : Int × Int), i ≠ j →
      (plan file_size chunk_size chunk_num)[i]? = some r →
      (plan file_size chunk_size chunk_num)[j]? = some r' →
      ∀ x : Int, ¬ ((r.1 ≤ x ∧ x < r.1 + r.2) ∧ (r'.1 ≤ x ∧ x < r'.1 + r'.2))) ∧
    ((plan file_size chunk_size chunk_num).map Prod.snd).sum
      = min file_size (chunk_size * chunkNum file_size chunk_size chunk_num) := by
  refine ⟨?_, ?_, ?_, plan_lengths_sum file_size chunk_size chunk_num hf hc⟩
  · intro r h
    obtain ⟨-, hr⟩ := plan_getElem?_some _ _ _ _ _ h
    rw [hr]
    simp [chunkRange, chunkOffset]
  · intro i r r' h h'
    obtain ⟨-, hr⟩ := plan_getElem?_some _ _ _ _ _ h
    obtain ⟨hi', hr'⟩ := plan_getElem?_some _ _ _ _ _ h'
    rw [hr, hr']
    simp only [chunkRange, chunkOffset]
    rw [chunkLength_inner file_size chunk_size _ i (by push_cast at hi'; omega)]
    push_cast
    ring
  · intro i j r r' hij h h' x hx
    obtain ⟨hi, hr⟩ := plan_getElem?_some _ _ _ _ _ h
    obtain ⟨hj, hr'⟩ := plan_getElem?_some _ _ _ _ _ h'
    rw [hr, hr'] at hx
    simp only [chunkRange, chunkOffset] at hx
    rcases Nat.lt_or_gt_of_ne hij with hlt | hgt
    · have := chunk_end_le_start file_size chunk_size _ hc i j hlt hj
      omega
    · have := chunk_end_le_start file_size chunk_size _ hc j i hgt hi
      omega

/-- In exact arithmetic the plan is the reference plan of the design, it has `C` entries,
a zero size gives no range, and the two worked examples of the design come out as
stated. -/
theorem plan_eq_specPlan_exact (file_size chunk_size chunk_num : Int)
    (hf : 0 ≤ file_size) (hc : 1 ≤ chunk_size) :
    plan file_size chunk_size chunk_num = specPlan file_size chunk_size chunk_num ∧
    ((plan file_size chunk_size chunk_num).length : Int)
      = specC file_size chunk_size chunk_num ∧
    (file_size = 0 → plan file_size chunk_size chunk_num = []) ∧
    plan 10000000 1048576 4 =
      [(0, 1048576), (1048576, 1048576), (2097152, 1048576), (3145728, 1048576)] ∧
    plan 3000000 1048576 0 = [(0, 1048576), (1048576, 1048576), (2097152, 902848)] := by
  obtain ⟨hC0, -⟩ := chunkNum_bounds file_size chunk_size chunk_num hf hc
  have hCeq := chunkNum_eq_specC file_size chunk_size chunk_num hf hc
  refine ⟨?_, ?_, ?_, by decide, by decide⟩
  · unfold plan specPlan
    rw [← hCeq]
    apply List.map_congr_left
    intro i _
    simp only [chunkRange, chunkOffset]
    rw [chunkLength_eq_specLength]
  · rw [plan_length, ← hCeq]
    omega
  · intro h0
    have hlen : (plan file_size chunk_size chunk_num).length = 0 := by
      rw [plan_length]
      obtain ⟨-, h1, h2⟩ := num_bounds file_size chunk_size hf hc
      obtain ⟨-, h3⟩ := chunkNum_bounds file_size chunk_size chunk_num hf hc
      have hn : num file_size chunk_size ≤ 0 := by
        by_contra hcon
        have : chunk_size * 1 ≤ chunk_size * num file_size chunk_size :=
          mul_le_mul_of_nonneg_left (by omega) (by omega)
        omega
      omega
    exact List.length_eq_zero.mp hlen

/-- Every range of the plan in exact arithmetic is well formed and inside the file. -/
theorem plan_ranges_wellformed_exact (file_size chunk_size chunk_num : Int)
    (hf : 0 ≤ file_size) (hc : 1 ≤ chunk_size) :
    ∀ r ∈ plan file_size chunk_size chunk_num,
      0 ≤ r.1 ∧ 1 ≤ r.2 ∧ r.2 ≤ chunk_size ∧ r.1 + r.2 ≤ file_size ∧
      (getContentRange r.1 r.2).1 ≤ (getContentRange r.1 r.2).2 ∧
      (getContentRange r.1 r.2).2 < file_size := by
  intro r hr
  obtain ⟨i, hi⟩ := List.getElem?_of_mem hr
  obtain ⟨hlt, hre⟩ := plan_getElem?_some _ _ _ _ _ hi
  obtain ⟨h1, h2, h3⟩ := chunkRange_facts file_size chunk_size chunk_num hf hc i hlt
  have h0 : (0 : Int) ≤ (i : Int) * chunk_size :=
    mul_nonneg (by omega) (by omega)
  rw [hre]
  simp only [chunkRange, chunkOffset, getContentRange]
  refine ⟨h0, h1, h2, h3, ?_, ?_⟩ <;> omega

end MultiGet
namespace MultiGet

/-! ## Write-back: disjoint writes commute -/

theorem writeChunk_length (fs : List Byte) (offset : Nat) (content : List Byte) :
    (writeChunk fs offset content).length
      = if content.isEmpty then fs.length else max fs.length (offset + content.length) := by
  unfold writeChunk
  split
  · rfl
  · simp only [List.length_append, List.length_take, List.length_replicate, List.length_drop]
    omega

/-- Byte `j` after a write, reading bytes past the end as zero. -/
theorem writeChunk_getD (fs : List Byte) (offset : Nat) (content : List Byte) (j : Nat) :
    (writeChunk fs offset content)[j]?.getD 0
      = if offset ≤ j ∧ j < offset + content.length then content[j - offset]?.getD 0
        else fs[j]?.getD 0 := by
  unfold writeChunk
  by_cases hemp : content.isEmpty
  · rw [if_pos hemp]
    have h0 : content.length = 0 := by
      rw [List.isEmpty_iff] at hemp
      rw [hemp]; rfl
    rw [if_neg (by omega)]
  · rw [if_neg hemp]
    simp only [List.getElem?_append, List.length_append, List.length_take,
      List.length_replicate, List.getElem?_take, List.getElem?_replicate, List.getElem?_drop]
    split_ifs
    all_goals first
      | rfl
      | omega
      | (rw [List.getElem?_eq_none (by omega)]; rfl)
      | (congr 2; omega)

/-- Two files of the same length with the same bytes are the same file. -/
theorem file_ext (a b : List Byte) (hlen : a.length = b.length)
    (h : ∀ j : Nat, a[j]?.getD 0 = b[j]?.getD 0) : a = b := by
  apply List.ext_getElem hlen
  intro j h1 h2
  have := h j
  rw [List.getElem?_eq_getElem h1, List.getElem?_eq_getElem h2] at this
  simpa using this

/-- Writes to disjoint byte ranges commute. -/
theorem writeChunk_comm (fs : List Byte) (o1 o2 : Nat) (c1 c2 : List Byte)
    (hdisj : o1 + c1.length ≤ o2 ∨ o2 + c2.length ≤ o1) :
    writeChunk (writeChunk fs o1 c1) o2 c2 = writeChunk (writeChunk fs o2 c2) o1 c1 := by
  apply file_ext
  · simp only [writeChunk_length]
    split <;> split <;> omega
  · intro j
    simp only [writeChunk_getD]
    split_ifs <;> first | rfl | omega

end MultiGet
namespace MultiGet

/-- Two different tasks of one plan, each holding bytes of its planned length, write to
disjoint byte ranges. -/
theorem chunkWrites_disjoint (file_size chunk_size C : Int) (hc : 1 ≤ chunk_size)
    (data : Nat → List Byte)
    (hlen : ∀ i : Nat, (i : Int) < C →
      ((data i).length : Int) = chunkLength i chunk_size C file_size)
    (i j : Nat) (hij : i < j) (hj : (j : Int) < C) :
    (chunkOffset i chunk_size).toNat + (data i).length ≤ (chunkOffset j chunk_size).toNat := by
  have h := chunk_end_le_start file_size chunk_size C hc i j hij hj
  have hl := hlen i (by omega)
  have hi0 : (0 : Int) ≤ (i : Int) * chunk_size := mul_nonneg (by omega) (by omega)
  have hj0 : (0 : Int) ≤ (j : Int) * chunk_size := mul_nonneg (by omega) (by omega)
  unfold chunkOffset
  omega

/-- C3. No corruption under reordering: for every plan of `main` and bytes of the planned
length for each chunk, applying the locked writes to an empty file in any permutation of
the chunks gives the same file as applying them in submission order, which is the order
of strictly increasing offset. -/
theorem writeback_order_independent (file_size chunk_size chunk_num : Int)
    (hf : 0 ≤ file_size) (hc : 1 ≤ chunk_size) (data : Nat → List Byte)
    (hlen : ∀ i : Nat, (i : Int) < chunkNum file_size chunk_size chunk_num →
      ((data i).length : Int)
        = chunkLength i chunk_size (chunkNum file_size chunk_size chunk_num) file_size)
    (order : List ChunkWrite)
    (hperm : order.Perm (chunkWrites file_size chunk_size chunk_num data)) :
    ((chunkWrites file_size chunk_size chunk_num data).map Prod.fst).Pairwise (· < ·) ∧
    order.foldl applyWrite [] =
      (chunkWrites file_size chunk_size chunk_num data).foldl applyWrite [] := by
  have hmem : ∀ w ∈ chunkWrites file_size chunk_size chunk_num data,
      ∃ i : Nat, (i : Int) < chunkNum file_size chunk_size chunk_num ∧
        w = ((chunkOffset i chunk_size).toNat, data i) := by
    intro w hw
    unfold chunkWrites at hw
    rw [List.mem_map] at hw
    obtain ⟨i, hi, hw⟩ := hw
    rw [List.mem_range] at hi
    exact ⟨i, by omega, hw.symm⟩
  constructor
  · unfold chunkWrites
    rw [List.map_map, List.pairwise_map]
    apply List.Pairwise.imp_of_mem _ (List.pairwise_lt_range _)
    intro i j hi hj hij
    rw [List.mem_range] at hi hj
    have h := chunkWrites_disjoint file_size chunk_size _ hc data hlen i j hij (by omega)
    have hfacts := chunkRange_facts file_size chunk_size chunk_num hf hc i (by omega)
    have hl := hlen i (by omega)
    simp only [Function.comp_apply]
    omega
  · refine (List.Perm.foldl_eq' hperm.symm ?_ []).symm
    intro x hx y hy z
    obtain ⟨i, hi, rfl⟩ := hmem x hx
    obtain ⟨j, hj, rfl⟩ := hmem y hy
    unfold applyWrite
    rcases Nat.lt_trichotomy i j with hlt | heq | hgt
    · exact writeChunk_comm z _ _ _ _
        (Or.inl (chunkWrites_disjoint file_size chunk_size _ hc data hlen i j hlt hj))
    · rw [heq]
    · exact writeChunk_comm z _ _ _ _
        (Or.inr (chunkWrites_disjoint file_size chunk_size _ hc data hlen j i hgt hi))

/-- C3 at `file_size = 5`, `chunk_size = 2`, completion order chunk 2, chunk 0, chunk 1. -/
theorem writeback_order_independent_witness :
    ((0 : Int) ≤ 5 ∧ (1 : Int) ≤ 2 ∧
      (∀ i : Nat, (i : Int) < chunkNum 5 2 0 →
        ((sampleData i).length : Int) = chunkLength i 2 (chunkNum 5 2 0) 5) ∧
      List.Perm [(4, [30]), (0, [10, 11]), (2, [20, 21])] (chunkWrites 5 2 0 sampleData)) ∧
    (((chunkWrites 5 2 0 sampleData).map Prod.fst).Pairwise (· < ·) ∧
      List.foldl applyWrite [] [(4, [30]), (0, [10, 11]), (2, [20, 21])] =
        (chunkWrites 5 2 0 sampleData).foldl applyWrite []) :=
  have hlen : ∀ i : Nat, (i : Int) < chunkNum 5 2 0 →
      ((sampleData i).length : Int) = chunkLength i 2 (chunkNum 5 2 0) 5 := by
    intro i hi
    have h3 : chunkNum 5 2 0 = 3 := by decide
    rw [h3] at hi ⊢
    have hi' : i < 3 := by omega
    interval_cases i <;> decide
  have hperm : List.Perm [(4, [30]), (0, [10, 11]), (2, [20, 21])]
      (chunkWrites 5 2 0 sampleData) := by decide
  ⟨⟨by decide, by decide, hlen, hperm⟩,
    writeback_order_independent 5 2 0 (by decide) (by decide) sampleData hlen _ hperm⟩

end MultiGet
namespace MultiGet

/-! ## The chunk task: retry loop -/

theorem attempts_append (a b : List Effect) : attempts (a ++ b) = attempts a + attempts b := by
  simp [attempts]

theorem writesOf_append (a b : List Effect) : writesOf (a ++ b) = writesOf a ++ writesOf b := by
  simp [writesOf]

theorem attempts_replicate (n : Nat) (o l : Int) :
    attempts (List.replicate n (Effect.getContent o l)) = n := by
  induction n with
  | zero => rfl
  | succ n ih =>
    rw [List.replicate_succ, ← List.singleton_append, attempts_append, ih]
    simp [attempts]
    omega

theorem writesOf_replicate (n : Nat) (o l : Int) :
    writesOf (List.replicate n (Effect.getContent o l)) = [] := by
  induction n with
  | zero => rfl
  | succ n ih =>
    rw [List.replicate_succ, ← List.singleton_append, writesOf_append, ih]
    simp [writesOf]

/-- All `retry` attempts from attempt `a` on fail: the flag is cleared, the file is
untouched, and exactly `retry` fetches were made. -/
theorem retryLoop_exhausted (fetch : Nat → Option (List Byte)) (offset length : Int)
    (retry : Nat) : ∀ (a : Nat) (w : World), (∀ j, j < retry → fetch (a + j) = none) →
    retryLoop fetch offset length retry a w =
      { downloadSucceeded := false, fs := w.fs,
        log := w.log ++ List.replicate retry (Effect.getContent offset length) } := by
  induction retry with
  | zero => intro a w _; simp [retryLoop]
  | succ n ih =>
    intro a w h
    have h0 : fetch a = none := by simpa using h 0 (by omega)
    rw [retryLoop, h0]
    simp only
    rw [ih (a + 1) _ (fun j hj => by rw [show a + 1 + j = a + (j + 1) by omega]; exact h _ (by omega))]
    simp [List.replicate_succ]

/-- Attempt `a + k` is the first to succeed and `k < retry`: its bytes are written once at
the offset, the flag is untouched, and exactly `k + 1` fetches were made. -/
theorem retryLoop_success (fetch : Nat → Option (List Byte)) (offset length : Int)
    (retry : Nat) : ∀ (a k : Nat) (w : World) (content : List Byte), k < retry →
    (∀ j, j < k → fetch (a + j) = none) → fetch (a + k) = some content →
    retryLoop fetch offset length retry a w =
      { downloadSucceeded := w.downloadSucceeded,
        fs := writeChunk w.fs offset.toNat content,
        log := w.log ++ List.replicate (k + 1) (Effect.getContent offset length)
          ++ [Effect.write offset content] } := by
  induction retry with
  | zero => intro a k w c hk; omega
  | succ n ih =>
    intro a k w c hk hnone hsome
    cases k with
    | zero =>
      rw [retryLoop, show fetch a = some c by simpa using hsome]
      simp
    | succ k =>
      have h0 : fetch a = none := by simpa using hnone 0 (by omega)
      rw [retryLoop, h0]
      simp only
      rw [ih (a + 1) k _ c (by omega)
        (fun j hj => by rw [show a + 1 + j = a + (j + 1) by omega]; exact hnone _ (by omega))
        (by rw [show a + 1 + k = a + (k + 1) by omega]; exact hsome)]
      simp [List.replicate_succ]

end MultiGet
namespace MultiGet

/-- The task of loop index `i` is the retry loop with `RETRY_NUM` attempts. -/
theorem chunkTask_eq (file_size chunk_size chunk_num : Int) (i : Nat)
    (fetch : Nat → Option (List Byte)) (w : World) :
    chunkTask file_size chunk_size chunk_num i fetch w =
      retryLoop fetch (chunkOffset i chunk_size)
        (chunkLength i chunk_size chunk_num file_size) RETRY_NUM 0 w := rfl

/-- C4. Retry bound: with `k` the 1-based index of the first successful attempt, the
retry loop makes exactly `min(k, maxAttempts)` fetches (`maxAttempts` when no attempt
succeeds); a fetch that always fails is attempted exactly `maxAttempts` times and then the
chunk is marked failed, for the task of `main` exactly `RETRY_NUM = 3` times; and after a
success the only further effect is the write, never another fetch. -/
theorem retry_bound (fetch : Nat → Option (List Byte)) (offset length : Int)
    (maxAttempts : Nat) (w : World) :
    (∀ k0 : Nat, (∀ j, j < k0 → fetch j = none) → (fetch k0).isSome = true →
      attempts (retryLoop fetch offset length maxAttempts 0 w).log
        = attempts w.log + min (k0 + 1) maxAttempts) ∧
    ((∀ j, fetch j = none) →
      attempts (retryLoop fetch offset length maxAttempts 0 w).log
        = attempts w.log + maxAttempts ∧
      (retryLoop fetch offset length maxAttempts 0 w).downloadSucceeded = false) ∧
    ((∀ j, fetch j = none) → ∀ (file_size chunk_size chunk_num : Int) (i : Nat),
      attempts (chunkTask file_size chunk_size chunk_num i fetch w).log
        = attempts w.log + 3 ∧
      (chunkTask file_size chunk_size chunk_num i fetch w).downloadSucceeded = false) ∧
    (∀ (k0 : Nat) (content : List Byte), k0 < maxAttempts →
      (∀ j, j < k0 → fetch j = none) → fetch k0 = some content →
      (retryLoop fetch offset length maxAttempts 0 w).log
        = w.log ++ List.replicate (k0 + 1) (Effect.getContent offset length)
          ++ [Effect.write offset content]) := by
  have hex : ∀ (o l : Int) (n : Nat), (∀ j, j < n → fetch j = none) →
      retryLoop fetch o l n 0 w =
        { downloadSucceeded := false, fs := w.fs,
          log := w.log ++ List.replicate n (Effect.getContent o l) } := by
    intro o l n h
    exact retryLoop_exhausted fetch o l n 0 w (fun j hj => by rw [Nat.zero_add]; exact h j hj)
  have hsu : ∀ (k0 : Nat) (c : List Byte), k0 < maxAttempts →
      (∀ j, j < k0 → fetch j = none) → fetch k0 = some c →
      retryLoop fetch offset length maxAttempts 0 w =
        { downloadSucceeded := w.downloadSucceeded,
          fs := writeChunk w.fs offset.toNat c,
          log := w.log ++ List.replicate (k0 + 1) (Effect.getContent offset length)
            ++ [Effect.write offset c] } := by
    intro k0 c hk hnone hsome
    exact retryLoop_success fetch offset length maxAttempts 0 k0 w c hk
      (fun j hj => by rw [Nat.zero_add]; exact hnone j hj) (by rw [Nat.zero_add]; exact hsome)
  refine ⟨?_, ?_, ?_, ?_⟩
  · intro k0 hnone hsome
    by_cases hk : k0 < maxAttempts
    · obtain ⟨c, hc⟩ := Option.isSome_iff_exists.mp hsome
      rw [hsu k0 c hk hnone hc]
      simp only [attempts_append, attempts_replicate]
      have : attempts [Effect.write offset c] = 0 := rfl
      rw [this, Nat.min_eq_left (by omega)]
      omega
    · rw [hex offset length maxAttempts (fun j hj => hnone j (by omega))]
      simp only [attempts_append, attempts_replicate]
      rw [Nat.min_eq_right (by omega)]
  · intro hnone
    rw [hex offset length maxAttempts (fun j _ => hnone j)]
    exact ⟨by simp only [attempts_append, attempts_replicate], rfl⟩
  · intro hnone file_size chunk_size chunk_num i
    rw [chunkTask_eq, hex _ _ RETRY_NUM (fun j _ => hnone j)]
    exact ⟨by simp only [attempts_append, attempts_replicate, RETRY_NUM], rfl⟩
  · intro k0 c hk hnone hsome
    rw [hsu k0 c hk hnone hsome]

/-- C4 on a fetch that fails twice and then succeeds, and on a fetch that always fails. -/
theorem retry_bound_witness :
    attempts (retryLoop sampleFetch 4 2 3 0 World.init).log = 0 + min (2 + 1) 3 ∧
    (retryLoop sampleFetch 4 2 3 0 World.init).log
      = [] ++ List.replicate (2 + 1) (Effect.getContent 4 2) ++ [Effect.write 4 [7, 8]] ∧
    attempts (retryLoop (fun _ => none) 4 2 3 0 World.init).log = 0 + 3 ∧
    (retryLoop (fun _ => none) 4 2 3 0 World.init).downloadSucceeded = false :=
  ⟨(retry_bound sampleFetch 4 2 3 World.init).1 2 (by decide) (by decide),
    (retry_bound sampleFetch 4 2 3 World.init).2.2.2 2 [7, 8] (by decide) (by decide)
      (by decide),
    ((retry_bound (fun _ => none) 4 2 3 World.init).2.1 (fun _ => rfl)).1,
    ((retry_bound (fun _ => none) 4 2 3 World.init).2.1 (fun _ => rfl)).2⟩

end MultiGet
namespace MultiGet

/-- Either the first `n` attempts all fail, or there is a first successful one among them. -/
theorem first_success_or_none (fetch : Nat → Option (List Byte)) (n : Nat) :
    (∀ j, j < n → fetch j = none) ∨
    ∃ (k0 : Nat) (content : List Byte),
      k0 < n ∧ (∀ j, j < k0 → fetch j = none) ∧ fetch k0 = some content := by
  induction n with
  | zero => exact Or.inl (fun j hj => absurd hj (Nat.not_lt_zero j))
  | succ n ih =>
    rcases ih with hall | ⟨k0, c, hk, hnone, hsome⟩
    · rcases hn : fetch n with _ | c
      · left
        intro j hj
        rcases Nat.lt_succ_iff_lt_or_eq.mp hj with h | h
        · exact hall j h
        · rw [h]; exact hn
      · exact Or.inr ⟨n, c, Nat.lt_succ_self n, hall, hn⟩
    · exact Or.inr ⟨k0, c, Nat.lt_succ_of_lt hk, hnone, hsome⟩

/-- The flag after one task: still true exactly when it was true and some attempt within
`RETRY_NUM` succeeded. -/
theorem chunkTask_flag (file_size chunk_size chunk_num : Int) (i : Nat)
    (fetch : Nat → Option (List Byte)) (w : World) :
    (chunkTask file_size chunk_size chunk_num i fetch w).downloadSucceeded = true ↔
      w.downloadSucceeded = true ∧ ∃ j, j < RETRY_NUM ∧ (fetch j).isSome = true := by
  rcases first_success_or_none fetch RETRY_NUM with hall | ⟨k0, c, hk, hnone, hsome⟩
  · rw [chunkTask_eq, retryLoop_exhausted fetch _ _ RETRY_NUM 0 w
      (fun j hj => by rw [Nat.zero_add]; exact hall j hj)]
    constructor
    · intro h; exact absurd h Bool.false_ne_true
    · rintro ⟨-, j, hj, hs⟩
      rw [hall j hj] at hs
      exact absurd hs (by decide)
  · rw [chunkTask_eq, retryLoop_success fetch _ _ RETRY_NUM 0 k0 w c hk
      (fun j hj => by rw [Nat.zero_add]; exact hnone j hj)
      (by rw [Nat.zero_add]; exact hsome)]
    constructor
    · intro h
      exact ⟨h, k0, hk, by rw [hsome]; rfl⟩
    · rintro ⟨h, -⟩
      exact h

/-- The flag after a run of tasks. -/
theorem runTasks_flag (file_size chunk_size chunk_num : Int)
    (fetch : Nat → Nat → Option (List Byte)) (order : List Nat) :
    ∀ w : World,
    (runTasks file_size chunk_size chunk_num fetch order w).downloadSucceeded = true ↔
      w.downloadSucceeded = true ∧
      ∀ i ∈ order, ∃ j, j < RETRY_NUM ∧ (fetch i j).isSome = true := by
  induction order with
  | nil => intro w; simp [runTasks]
  | cons i rest ih =>
    intro w
    have hstep : runTasks file_size chunk_size chunk_num fetch (i :: rest) w
        = runTasks file_size chunk_size chunk_num fetch rest
            (chunkTask file_size chunk_size chunk_num i (fetch i) w) := rfl
    rw [hstep, ih, chunkTask_flag]
    simp only [List.mem_cons, forall_eq_or_imp]
    tauto

/-- C5. Outcome of one chunk task on `(downloadSucceeded, fs)`: if all `RETRY_NUM`
attempts fail the flag becomes false and the file is unchanged (no write); if attempt `k0`
is the first to succeed, its bytes are written at the chunk offset exactly once and the
flag keeps its value. So no task sets the flag back to true, and after all tasks have run
from a true flag, the flag is true iff every chunk had a successful attempt within
`RETRY_NUM`. -/
theorem chunkTask_outcome (file_size chunk_size chunk_num : Int) (i : Nat)
    (fetch : Nat → Option (List Byte)) (w : World) :
    ((∀ j, j < RETRY_NUM → fetch j = none) →
      (chunkTask file_size chunk_size chunk_num i fetch w).downloadSucceeded = false ∧
      (chunkTask file_size chunk_size chunk_num i fetch w).fs = w.fs ∧
      writesOf (chunkTask file_size chunk_size chunk_num i fetch w).log = writesOf w.log) ∧
    (∀ (k0 : Nat) (content : List Byte), k0 < RETRY_NUM →
      (∀ j, j < k0 → fetch j = none) → fetch k0 = some content →
      (chunkTask file_size chunk_size chunk_num i fetch w).fs
        = writeChunk w.fs (chunkOffset i chunk_size).toNat content ∧
      (chunkTask file_size chunk_size chunk_num i fetch w).downloadSucceeded
        = w.downloadSucceeded ∧
      writesOf (chunkTask file_size chunk_size chunk_num i fetch w).log
        = writesOf w.log ++ [(chunkOffset i chunk_size, content)]) ∧
    ((chunkTask file_size chunk_size chunk_num i fetch w).downloadSucceeded = true →
      w.downloadSucceeded = true) ∧
    (∀ (fetchAll : Nat → Nat → Option (List Byte)) (order : List Nat) (w0 : World),
      w0.downloadSucceeded = true →
      ((runTasks file_size chunk_size chunk_num fetchAll order w0).downloadSucceeded = true ↔
        ∀ t ∈ order, ∃ j, j < RETRY_NUM ∧ (fetchAll t j).isSome = true)) := by
  refine ⟨?_, ?_, ?_, ?_⟩
  · intro hall
    rw [chunkTask_eq, retryLoop_exhausted fetch _ _ RETRY_NUM 0 w
      (fun j hj => by rw [Nat.zero_add]; exact hall j hj)]
    refine ⟨rfl, rfl, ?_⟩
    simp only [writesOf_append, writesOf_replicate, List.append_nil]
  · intro k0 c hk hnone hsome
    rw [chunkTask_eq, retryLoop_success fetch _ _ RETRY_NUM 0 k0 w c hk
      (fun j hj => by rw [Nat.zero_add]; exact hnone j hj)
      (by rw [Nat.zero_add]; exact hsome)]
    refine ⟨rfl, rfl, ?_⟩
    simp only [writesOf_append, writesOf_replicate, List.append_nil]
    rfl
  · intro h
    exact ((chunkTask_flag file_size chunk_size chunk_num i fetch w).mp h).1
  · intro fetchAll order w0 h0
    rw [runTasks_flag]
    exact ⟨fun h => h.2, fun h => ⟨h0, h⟩⟩

/-- C5 on a task whose third attempt succeeds, a task that never succeeds, and a run of
both kinds. -/
theorem chunkTask_outcome_witness :
    ((chunkTask 5 2 3 1 (fun _ => none) World.init).downloadSucceeded = false ∧
      (chunkTask 5 2 3 1 (fun _ => none) World.init).fs = World.init.fs ∧
      writesOf (chunkTask 5 2 3 1 (fun _ => none) World.init).log
        = writesOf World.init.log) ∧
    ((chunkTask 5 2 3 1 sampleFetch World.init).fs
        = writeChunk World.init.fs (chunkOffset 1 2).toNat [7, 8] ∧
      (chunkTask 5 2 3 1 sampleFetch World.init).downloadSucceeded
        = World.init.downloadSucceeded ∧
      writesOf (chunkTask 5 2 3 1 sampleFetch World.init).log
        = writesOf World.init.log ++ [(chunkOffset 1 2, [7, 8])]) ∧
    ((runTasks 5 2 3 sampleFetchAll [1, 0] World.init).downloadSucceeded = true ↔
      ∀ t ∈ [1, 0], ∃ j, j < RETRY_NUM ∧ (sampleFetchAll t j).isSome = true) :=
  ⟨(chunkTask_outcome 5 2 3 1 (fun _ => none) World.init).1 (fun _ _ => rfl),
    (chunkTask_outcome 5 2 3 1 sampleFetch World.init).2.1 2 [7, 8] (by decide) (by decide)
      (by decide),
    (chunkTask_outcome 5 2 3 1 sampleFetch World.init).2.2.2 sampleFetchAll [1, 0]
      World.init rfl⟩

end MultiGet
namespace MultiGet

/-! ## The planner on 32-bit `int` -/

theorem int32_of_mem (x : Int) (h1 : INT_MIN ≤ x) (h2 : x ≤ INT_MAX) : int32 x = some x := by
  unfold int32
  rw [if_pos ⟨h1, h2⟩]

theorem int32_eq_some (x y : Int) (h : int32 x = some y) :
    y = x ∧ -2147483648 ≤ x ∧ x ≤ 2147483647 := by
  unfold int32 at h
  split at h
  · rename_i hx
    simp only [Option.some.injEq] at h
    exact ⟨h.symm, hx.1, hx.2⟩
  · exact absurd h (by simp)

theorem wrap32_of_mem (x : Int) (h1 : -2147483648 ≤ x) (h2 : x ≤ 2147483647) :
    wrap32 x = x := by
  unfold wrap32
  omega

theorem allSome_map_some {α β : Type} (f : α → Option β) (g : α → β) (l : List α)
    (h : ∀ a ∈ l, f a = some (g a)) : allSome (l.map f) = some (l.map g) := by
  induction l with
  | nil => rfl
  | cons a as ih =>
    have ha := h a (List.mem_cons_self a as)
    have has := ih (fun b hb => h b (List.mem_cons_of_mem a hb))
    simp [allSome, ha, has]

/-- The values the planner multiplies out stay between 0 and `file_size + chunk_size - 1`. -/
theorem planner_values (file_size chunk_size chunk_num : Int)
    (hf : 0 ≤ file_size) (hc : 1 ≤ chunk_size) :
    0 ≤ num file_size chunk_size ∧
    num file_size chunk_size ≤ file_size + chunk_size - 1 ∧
    0 ≤ chunkNum file_size chunk_size chunk_num ∧
    chunkNum file_size chunk_size chunk_num ≤ file_size + chunk_size - 1 ∧
    0 ≤ chunk_size * chunkNum file_size chunk_size chunk_num ∧
    chunk_size * chunkNum file_size chunk_size chunk_num ≤ file_size + chunk_size - 1 ∧
    ∀ i : Nat, (i : Int) < chunkNum file_size chunk_size chunk_num →
      0 ≤ chunk_size * (i : Int) ∧
      chunk_size * (i : Int) ≤ chunk_size * chunkNum file_size chunk_size chunk_num := by
  obtain ⟨hn0, hn1, hn2⟩ := num_bounds file_size chunk_size hf hc
  obtain ⟨hC0, hC1⟩ := chunkNum_bounds file_size chunk_size chunk_num hf hc
  have hnum_le : num file_size chunk_size ≤ chunk_size * num file_size chunk_size := by
    have := mul_le_mul_of_nonneg_right hc hn0
    simpa using this
  have hCc : chunk_size * chunkNum file_size chunk_size chunk_num
      ≤ chunk_size * num file_size chunk_size :=
    mul_le_mul_of_nonneg_left hC1 (by omega)
  have hCc0 : 0 ≤ chunk_size * chunkNum file_size chunk_size chunk_num :=
    mul_nonneg (by omega) hC0
  refine ⟨hn0, by omega, hC0, by omega, hCc0, by omega, ?_⟩
  intro i hi
  exact ⟨mul_nonneg (by omega) (by omega), mul_le_mul_of_nonneg_left (by omega) (by omega)⟩

/-- Within the bound the checked quotient is the exact one. -/
theorem num32_exact (file_size chunk_size : Int)
    (hf : 0 ≤ file_size) (hc : 1 ≤ chunk_size) (hb : file_size + chunk_size ≤ 2147483647) :
    num32 file_size chunk_size = some (num file_size chunk_size) := by
  obtain ⟨hn0, hn1, -⟩ := planner_values file_size chunk_size 0 hf hc
  have hmin : INT_MIN = -2147483648 := rfl
  have hmax : INT_MAX = 2147483647 := rfl
  unfold num32
  rw [int32_of_mem _ (by omega) (by omega)]
  simp only [Option.some_bind]
  rw [int32_of_mem _ (by omega) (by omega)]
  simp only [Option.some_bind]
  rw [if_neg (by omega)]
  exact int32_of_mem _ (by unfold num at hn0; omega) (by unfold num at hn1; omega)

theorem chunkNum32_exact (file_size chunk_size chunk_num : Int)
    (hf : 0 ≤ file_size) (hc : 1 ≤ chunk_size) (hb : file_size + chunk_size ≤ 2147483647) :
    chunkNum32 file_size chunk_size chunk_num
      = some (chunkNum file_size chunk_size chunk_num) := by
  unfold chunkNum32
  rw [num32_exact file_size chunk_size hf hc hb]
  rfl

/-- Within the bound the checked computation of one task gives the exact range. -/
theorem chunkRange32_exact (file_size chunk_size chunk_num : Int)
    (hf : 0 ≤ file_size) (hc : 1 ≤ chunk_size) (hb : file_size + chunk_size ≤ 2147483647)
    (i : Nat) (hi : (i : Int) < chunkNum file_size chunk_size chunk_num) :
    chunkRange32 file_size chunk_size (chunkNum file_size chunk_size chunk_num) i
      = some (chunkRange file_size chunk_size (chunkNum file_size chunk_size chunk_num) i) := by
  obtain ⟨-, -, hC0, hC1, hCc0, hCc1, hall⟩ :=
    planner_values file_size chunk_size chunk_num hf hc
  obtain ⟨hic0, hic⟩ := hall i hi
  obtain ⟨hl1, hl2, hl3⟩ := chunkRange_facts file_size chunk_size chunk_num hf hc i hi
  generalize chunkNum file_size chunk_size chunk_num = C at *
  have hmin : INT_MIN = -2147483648 := rfl
  have hmax : INT_MAX = 2147483647 := rfl
  have hcomm : (i : Int) * chunk_size = chunk_size * i := mul_comm _ _
  have hlen32 : chunkLength32 i chunk_size C file_size
      = some (chunkLength i chunk_size C file_size) := by
    unfold chunkLength32 chunkLength
    rw [int32_of_mem _ (by omega) (by omega)]
    simp only [Option.some_bind]
    by_cases hlast : (i : Int) = C - 1
    · rw [if_pos hlast, if_pos hlast, int32_of_mem _ (by omega) (by omega)]
      simp only [Option.some_bind]
      by_cases hover : chunk_size * C > file_size
      · rw [if_pos hover, if_pos hover, int32_of_mem _ (by omega) (by omega)]
        simp only [Option.some_bind]
        exact int32_of_mem _ (by omega) (by omega)
      · rw [if_neg hover, if_neg hover]
    · rw [if_neg hlast, if_neg hlast]
  unfold chunkRange32 chunkRange chunkOffset getContentRange32
  rw [int32_of_mem _ (by omega) (by omega)]
  simp only [Option.some_bind]
  rw [hlen32]
  simp only [Option.some_bind]
  rw [int32_of_mem _ (by omega) (by omega)]
  simp only [Option.some_bind]
  rw [int32_of_mem _ (by omega) (by omega)]
  simp only [Option.some_bind]

/-- Within the bound the checked plan is the exact plan. -/
theorem plan32_exact (file_size chunk_size chunk_num : Int)
    (hf : 0 ≤ file_size) (hc : 1 ≤ chunk_size) (hb : file_size + chunk_size ≤ 2147483647) :
    plan32 file_size chunk_size chunk_num = some (plan file_size chunk_size chunk_num) := by
  unfold plan32
  rw [chunkNum32_exact file_size chunk_size chunk_num hf hc hb]
  simp only [Option.some_bind]
  unfold plan
  apply allSome_map_some
  intro i hi
  rw [List.mem_range] at hi
  have hC0 := (chunkNum_bounds file_size chunk_size chunk_num hf hc).1
  exact chunkRange32_exact file_size chunk_size chunk_num hf hc hb i (by omega)

/-- A plan is computed without overflow only within the bound. -/
theorem plan32_some_bound (file_size chunk_size chunk_num : Int) (p : List (Int × Int))
    (h : plan32 file_size chunk_size chunk_num = some p) :
    file_size + chunk_size ≤ 2147483647 := by
  rcases hs : int32 (file_size + chunk_size) with _ | a
  · simp [plan32, chunkNum32, num32, hs] at h
  · exact (int32_eq_some _ _ hs).2.2

/-- A plan computed without overflow is the exact plan. -/
theorem plan32_some_eq (file_size chunk_size chunk_num : Int)
    (hf : 0 ≤ file_size) (hc : 1 ≤ chunk_size) (p : List (Int × Int))
    (h : plan32 file_size chunk_size chunk_num = some p) :
    p = plan file_size chunk_size chunk_num := by
  have hb := plan32_some_bound file_size chunk_size chunk_num p h
  rw [plan32_exact file_size chunk_size chunk_num hf hc hb] at h
  exact (Option.some.inj h).symm

/-- C10 as stated fails at the largest file size with 1-byte chunks: the bound of the
claim holds (`file_size + chunk_size - 1 = INT_MAX`), and the first operation of the
planner, `file_size + chunk_size`, is `2^31`, outside `int`. -/
theorem plan32_overflow_at_bound :
    ((0 : Int) ≤ 2147483647 ∧ (1 : Int) ≤ 1 ∧ (2147483647 : Int) + 1 - 1 ≤ 2 ^ 31 - 1) ∧
    (2147483647 : Int) + 1 = 2 ^ 31 ∧
    int32 (2147483647 + 1) = none ∧
    num32 2147483647 1 = none ∧
    plan32 2147483647 1 4 = none := by
  refine ⟨by decide, by decide, by decide, by decide, by decide⟩

/-- C10, amended. If `0 ≤ file_size`, `1 ≤ chunk_size` and
`file_size + chunk_size ≤ 2^31 - 1`, then for every requested chunk count no `int`
operation of the planner or of the range computation of `getContent` overflows, and the
plan computed on `int` is the plan computed in exact integer arithmetic. -/
theorem plan32_eq_plan (file_size chunk_size chunk_num : Int)
    (hf : 0 ≤ file_size) (hc : 1 ≤ chunk_size)
    (hbound : file_size + chunk_size ≤ 2 ^ 31 - 1) :
    plan32 file_size chunk_size chunk_num = some (plan file_size chunk_size chunk_num) := by
  have hb : file_size + chunk_size ≤ 2147483647 := by
    have : (2 : Int) ^ 31 - 1 = 2147483647 := by norm_num
    omega
  have hC0 := (chunkNum_bounds file_size chunk_size chunk_num hf hc).1
  unfold plan32
  rw [chunkNum32_exact file_size chunk_size chunk_num hf hc hb]
  simp only [Option.some_bind]
  unfold plan
  apply allSome_map_some
  intro i hi
  rw [List.mem_range] at hi
  exact chunkRange32_exact file_size chunk_size chunk_num hf hc hb i (by omega)

/-- C10, amended, at a 3,000,000-byte file in 1 MiB chunks. -/
theorem plan32_eq_plan_witness :
    ((0 : Int) ≤ 3000000 ∧ (1 : Int) ≤ 1048576 ∧ (3000000 : Int) + 1048576 ≤ 2 ^ 31 - 1) ∧
    plan32 3000000 1048576 0 = some (plan 3000000 1048576 0) :=
  ⟨by decide, plan32_eq_plan 3000000 1048576 0 (by decide) (by decide) (by decide)⟩

end MultiGet
namespace MultiGet

/-! ## The planner on wrapping 32-bit `int` -/

/-- When `file_size + chunk_size - 1` fits in `int`, the wrapping quotient is the exact
one (a wrap of `file_size + chunk_size` to `INT_MIN` is undone by the `- 1`). -/
theorem numWrap_exact (file_size chunk_size : Int)
    (hf : 0 ≤ file_size) (hc : 1 ≤ chunk_size)
    (hb : file_size + chunk_size - 1 ≤ 2147483647) :
    numWrap file_size chunk_size = num file_size chunk_size := by
  obtain ⟨hn0, hn1, -⟩ := planner_values file_size chunk_size 0 hf hc
  have hs : wrap32 (wrap32 (file_size + chunk_size) - 1) = file_size + chunk_size - 1 := by
    unfold wrap32
    omega
  unfold numWrap
  rw [hs]
  exact wrap32_of_mem _ (by unfold num at hn0; omega) (by unfold num at hn1; omega)

/-- When `file_size + chunk_size - 1` fits in `int`, the wrapping plan is the exact plan. -/
theorem planWrap_exact (file_size chunk_size chunk_num : Int)
    (hf : 0 ≤ file_size) (hc : 1 ≤ chunk_size)
    (hb : file_size + chunk_size - 1 ≤ 2147483647) :
    planWrap file_size chunk_size chunk_num = plan file_size chunk_size chunk_num := by
  have hC : chunkNumWrap file_size chunk_size chunk_num
      = chunkNum file_size chunk_size chunk_num := by
    unfold chunkNumWrap chunkNum
    rw [numWrap_exact file_size chunk_size hf hc hb]
  unfold planWrap plan
  rw [hC]
  apply List.map_congr_left
  intro i hi
  rw [List.mem_range] at hi
  obtain ⟨-, -, hC0, hC1, hCc0, hCc1, hall⟩ :=
    planner_values file_size chunk_size chunk_num hf hc
  have hiC : (i : Int) < chunkNum file_size chunk_size chunk_num := by omega
  obtain ⟨hic0, hic⟩ := hall i hiC
  obtain ⟨hl1, hl2, hl3⟩ := chunkRange_facts file_size chunk_size chunk_num hf hc i hiC
  generalize chunkNum file_size chunk_size chunk_num = C at *
  have hcomm : (i : Int) * chunk_size = chunk_size * i := mul_comm _ _
  unfold chunkRangeWrap chunkRange chunkOffset chunkLengthWrap chunkLength
  rw [wrap32_of_mem ((i : Int) * chunk_size) (by omega) (by omega),
    wrap32_of_mem (C - 1) (by omega) (by omega),
    wrap32_of_mem (chunk_size * C) (by omega) (by omega),
    wrap32_of_mem (chunk_size * (i : Int)) (by omega) (by omega),
    wrap32_of_mem (file_size - chunk_size * (i : Int)) (by omega) (by omega)]

/-- When `file_size + chunk_size - 1` does not fit in `int`, the wrapped sum is negative,
the chunk count is not positive and the loop of `main` enqueues no task. -/
theorem planWrap_overflow (file_size chunk_size chunk_num : Int)
    (hf : 0 ≤ file_size) (hc : 1 ≤ chunk_size)
    (hfmax : file_size ≤ 2147483647) (hcmax : chunk_size ≤ 2147483647)
    (hb : 2147483647 < file_size + chunk_size - 1) :
    chunkNumWrap file_size chunk_size chunk_num ≤ 0 ∧
    planWrap file_size chunk_size chunk_num = [] := by
  have hs : wrap32 (wrap32 (file_size + chunk_size) - 1)
      = -(4294967296 - (file_size + chunk_size - 1)) := by
    unfold wrap32
    omega
  have ht0 : 0 ≤ 4294967296 - (file_size + chunk_size - 1) := by omega
  have hq0 : 0 ≤ (4294967296 - (file_size + chunk_size - 1)) / chunk_size :=
    Int.ediv_nonneg ht0 (by omega)
  have hq1 : (4294967296 - (file_size + chunk_size - 1)) / chunk_size
      ≤ 4294967296 - (file_size + chunk_size - 1) :=
    Int.ediv_le_self _ ht0
  have hnum : numWrap file_size chunk_size ≤ 0 := by
    unfold numWrap
    rw [hs, Int.neg_tdiv, Int.tdiv_eq_ediv ht0 (by omega)]
    rw [wrap32_of_mem _ (by omega) (by omega)]
    omega
  have hC : chunkNumWrap file_size chunk_size chunk_num ≤ 0 := by
    unfold chunkNumWrap
    split
    · exact hnum
    · exact le_trans (min_le_left _ _) hnum
  refine ⟨hC, ?_⟩
  unfold planWrap
  have h0 : (chunkNumWrap file_size chunk_size chunk_num).toNat = 0 := by omega
  rw [h0]
  rfl

end MultiGet
namespace MultiGet

/-! ## The planner of `main` on `int`: coverage, reference plan, well-formed ranges -/

/-- C1 as stated fails where `file_size + chunk_size` leaves `int`: at
`file_size = 2000000000`, `chunk_size = 200000000`, all chunks requested, the checked
planner overflows; with wrapping operations `main` computes `chunk_num = -10`, enqueues
no task, and the lengths sum to 0 while `min(file_size, chunk_size * C)` is
`-2000000000`. -/
theorem coverage_fails_on_overflow :
    ((0 : Int) ≤ 2000000000 ∧ (1 : Int) ≤ 200000000) ∧
    plan32 2000000000 200000000 0 = none ∧
    chunkNumWrap 2000000000 200000000 0 = -10 ∧
    planWrap 2000000000 200000000 0 = [] ∧
    ((planWrap 2000000000 200000000 0).map Prod.snd).sum = 0 ∧
    min 2000000000 (200000000 * chunkNumWrap 2000000000 200000000 0) = -2000000000 ∧
    ((planWrap 2000000000 200000000 0).map Prod.snd).sum
      ≠ min 2000000000 (200000000 * chunkNumWrap 2000000000 200000000 0) := by
  refine ⟨by decide, by decide, by decide, by decide, by decide, by decide, by decide⟩

/-- C1, amended. Coverage within `int`: if `0 ≤ file_size`, `1 ≤ chunk_size` and
`file_size + chunk_size ≤ 2^31 - 1`, then for every requested chunk count `main` computes
its ranges without overflow (checked and wrapping operations give the same ranges), and
they start at offset 0, are contiguous, are pairwise non-overlapping as byte intervals,
and their lengths sum to `min(file_size, chunk_size * C)` for the effective chunk count
`C` that `main` computes. -/
theorem plan32_coverage (file_size chunk_size chunk_num : Int)
    (hf : 0 ≤ file_size) (hc : 1 ≤ chunk_size)
    (hbound : file_size + chunk_size ≤ 2 ^ 31 - 1) :
    ∃ (p : List (Int × Int)) (C : Int),
      plan32 file_size chunk_size chunk_num = some p ∧
      chunkNum32 file_size chunk_size chunk_num = some C ∧
      planWrap file_size chunk_size chunk_num = p ∧
      chunkNumWrap file_size chunk_size chunk_num = C ∧
      (∀ r, p[0]? = some r → r.1 = 0) ∧
      (∀ (i : Nat) (r r' : Int × Int),
        p[i]? = some r → p[i + 1]? = some r' → r'.1 = r.1 + r.2) ∧
      (∀ (i j : Nat) (r r' : Int × Int), i ≠ j → p[i]? = some r → p[j]? = some r' →
        ∀ x : Int, ¬ ((r.1 ≤ x ∧ x < r.1 + r.2) ∧ (r'.1 ≤ x ∧ x < r'.1 + r'.2))) ∧
      (p.map Prod.snd).sum = min file_size (chunk_size * C) := by
  have hb : file_size + chunk_size ≤ 2147483647 := by
    have : (2 : Int) ^ 31 - 1 = 2147483647 := by norm_num
    omega
  obtain ⟨h0, hcont, hdisj, hsum⟩ := plan_coverage_exact file_size chunk_size chunk_num hf hc
  refine ⟨plan file_size chunk_size chunk_num, chunkNum file_size chunk_size chunk_num,
    plan32_exact file_size chunk_size chunk_num hf hc hb,
    chunkNum32_exact file_size chunk_size chunk_num hf hc hb,
    planWrap_exact file_size chunk_size chunk_num hf hc (by omega), ?_,
    h0, hcont, hdisj, hsum⟩
  unfold chunkNumWrap chunkNum
  rw [numWrap_exact file_size chunk_size hf hc (by omega)]

/-- C1, amended, at `file_size = 5`, `chunk_size = 2`, all chunks requested. -/
theorem plan32_coverage_witness :
    ((0 : Int) ≤ 5 ∧ (1 : Int) ≤ 2 ∧ (5 : Int) + 2 ≤ 2 ^ 31 - 1) ∧
    ∃ (p : List (Int × Int)) (C : Int),
      plan32 5 2 0 = some p ∧ chunkNum32 5 2 0 = some C ∧
      planWrap 5 2 0 = p ∧ chunkNumWrap 5 2 0 = C ∧
      (∀ r, p[0]? = some r → r.1 = 0) ∧
      (∀ (i : Nat) (r r' : Int × Int),
        p[i]? = some r → p[i + 1]? = some r' → r'.1 = r.1 + r.2) ∧
      (∀ (i j : Nat) (r r' : Int × Int), i ≠ j → p[i]? = some r → p[j]? = some r' →
        ∀ x : Int, ¬ ((r.1 ≤ x ∧ x < r.1 + r.2) ∧ (r'.1 ≤ x ∧ x < r'.1 + r'.2))) ∧
      (p.map Prod.snd).sum = min 5 (2 * C) :=
  ⟨by decide, plan32_coverage 5 2 0 (by decide) (by decide) (by decide)⟩

/-- C2 as stated fails where `file_size + chunk_size` leaves `int`: at
`file_size = 2000000000`, `chunk_size = 200000000`, all chunks requested, the reference
plan has `C = 10` ranges, the checked planner overflows, and with wrapping operations
`main` submits no task; with the default options (`1048576`, `4`) a file of 2147000000
bytes gets no task either, where the reference plan has 4. -/
theorem reference_plan_fails_on_overflow :
    ((0 : Int) ≤ 2000000000 ∧ (1 : Int) ≤ 200000000) ∧
    specC 2000000000 200000000 0 = 10 ∧
    (specPlan 2000000000 200000000 0).length = 10 ∧
    plan32 2000000000 200000000 0 = none ∧
    (planWrap 2000000000 200000000 0).length = 0 ∧
    specC 2147000000 CHUNK_SIZE CHUNK_NUM = 4 ∧
    plan32 2147000000 CHUNK_SIZE CHUNK_NUM = none ∧
    planWrap 2147000000 CHUNK_SIZE CHUNK_NUM = [] := by
  have h1 : specC 2000000000 200000000 0 = 10 := by
    rw [← chunkNum_eq_specC 2000000000 200000000 0 (by decide) (by decide)]
    decide
  have h2 : specC 2147000000 CHUNK_SIZE CHUNK_NUM = 4 := by
    rw [← chunkNum_eq_specC 2147000000 CHUNK_SIZE CHUNK_NUM (by decide) (by decide)]
    decide
  refine ⟨by decide, h1, ?_, by decide, by decide, h2, by decide, by decide⟩
  simp [specPlan, h1]

/-- C2, amended. Within `int` the plan of `main` is the reference plan: if `0 ≤ totalSize`,
`1 ≤ chunkSize` and `totalSize + chunkSize ≤ 2^31 - 1`, then for every requested chunk
count `main` computes without overflow exactly `C` tasks, with
`N = ceil(totalSize / chunkSize)`, `C = N` for a request `≤ 0` and `min(N, request)`
otherwise; task `i` at offset `i * chunkSize`; every task but the last of length
`chunkSize`, the last of length `totalSize - chunkSize * (C - 1)` when
`chunkSize * C > totalSize`. A zero size gives no task, and the two worked examples of the
design come out as stated. -/
theorem plan32_eq_specPlan (file_size chunk_size chunk_num : Int)
    (hf : 0 ≤ file_size) (hc : 1 ≤ chunk_size)
    (hbound : file_size + chunk_size ≤ 2 ^ 31 - 1) :
    plan32 file_size chunk_size chunk_num = some (specPlan file_size chunk_size chunk_num) ∧
    chunkNum32 file_size chunk_size chunk_num
      = some (specC file_size chunk_size chunk_num) ∧
    planWrap file_size chunk_size chunk_num = specPlan file_size chunk_size chunk_num ∧
    ((specPlan file_size chunk_size chunk_num).length : Int)
      = specC file_size chunk_size chunk_num ∧
    (file_size = 0 → plan32 file_size chunk_size chunk_num = some []) ∧
    plan32 10000000 1048576 4 =
      some [(0, 1048576), (1048576, 1048576), (2097152, 1048576), (3145728, 1048576)] ∧
    plan32 3000000 1048576 0
      = some [(0, 1048576), (1048576, 1048576), (2097152, 902848)] := by
  have hb : file_size + chunk_size ≤ 2147483647 := by
    have : (2 : Int) ^ 31 - 1 = 2147483647 := by norm_num
    omega
  obtain ⟨heq, hlen, hzero, -, -⟩ :=
    plan_eq_specPlan_exact file_size chunk_size chunk_num hf hc
  have h32 := plan32_exact file_size chunk_size chunk_num hf hc hb
  refine ⟨?_, ?_, ?_, ?_, ?_, by decide, by decide⟩
  · rw [h32, heq]
  · rw [chunkNum32_exact file_size chunk_size chunk_num hf hc hb,
      chunkNum_eq_specC file_size chunk_size chunk_num hf hc]
  · rw [planWrap_exact file_size chunk_size chunk_num hf hc (by omega), heq]
  · rw [← heq]; exact hlen
  · intro h0
    rw [h32, hzero h0]

/-- C2, amended, at the second worked example of the design. -/
theorem plan32_eq_specPlan_witness :
    ((0 : Int) ≤ 3000000 ∧ (1 : Int) ≤ 1048576 ∧ (3000000 : Int) + 1048576 ≤ 2 ^ 31 - 1) ∧
    (plan32 3000000 1048576 0 = some (specPlan 3000000 1048576 0) ∧
    chunkNum32 3000000 1048576 0 = some (specC 3000000 1048576 0) ∧
    planWrap 3000000 1048576 0 = specPlan 3000000 1048576 0 ∧
    ((specPlan 3000000 1048576 0).length : Int) = specC 3000000 1048576 0 ∧
    ((3000000 : Int) = 0 → plan32 3000000 1048576 0 = some []) ∧
    plan32 10000000 1048576 4 =
      some [(0, 1048576), (1048576, 1048576), (2097152, 1048576), (3145728, 1048576)] ∧
    plan32 3000000 1048576 0
      = some [(0, 1048576), (1048576, 1048576), (2097152, 902848)]) :=
  ⟨by decide, plan32_eq_specPlan 3000000 1048576 0 (by decide) (by decide) (by decide)⟩

/-- C8. Every range `main` computes on `int` is well formed and inside the file, for every
`file_size ≥ 0`, `chunk_size ≥ 1` and requested chunk count: each range of a plan computed
without overflow, and each range computed with wrapping operations, has offset `≥ 0`,
`1 ≤ length ≤ chunk_size` and `offset + length ≤ file_size`, and the inclusive range of
`getContent` is computed without overflow, has `start ≤ end` and `end < file_size`.
Where `file_size + chunk_size - 1` leaves `int` no range is computed at all; within
`file_size + chunk_size ≤ 2^31 - 1` the plan is computed. -/
theorem plan32_ranges_wellformed (file_size chunk_size chunk_num : Int)
    (hf : 0 ≤ file_size) (hc : 1 ≤ chunk_size) :
    (∀ p, plan32 file_size chunk_size chunk_num = some p → ∀ r ∈ p,
      0 ≤ r.1 ∧ 1 ≤ r.2 ∧ r.2 ≤ chunk_size ∧ r.1 + r.2 ≤ file_size ∧
      getContentRange32 r.1 r.2 = some (r.1, r.1 + r.2 - 1) ∧
      r.1 ≤ r.1 + r.2 - 1 ∧ r.1 + r.2 - 1 < file_size) ∧
    (file_size ≤ INT_MAX → chunk_size ≤ INT_MAX →
      ∀ r ∈ planWrap file_size chunk_size chunk_num,
      0 ≤ r.1 ∧ 1 ≤ r.2 ∧ r.2 ≤ chunk_size ∧ r.1 + r.2 ≤ file_size ∧
      getContentRangeWrap r.1 r.2 = (r.1, r.1 + r.2 - 1) ∧
      r.1 ≤ r.1 + r.2 - 1 ∧ r.1 + r.2 - 1 < file_size) ∧
    (file_size ≤ INT_MAX → chunk_size ≤ INT_MAX → INT_MAX < file_size + chunk_size - 1 →
      planWrap file_size chunk_size chunk_num = [] ∧
      plan32 file_size chunk_size chunk_num = none) ∧
    (file_size + chunk_size ≤ 2 ^ 31 - 1 →
      (plan32 file_size chunk_size chunk_num).isSome = true) := by
  have hmax : INT_MAX = 2147483647 := rfl
  have hpow : (2 : Int) ^ 31 - 1 = 2147483647 := by norm_num
  have hmin : INT_MIN = -2147483648 := rfl
  refine ⟨?_, ?_, ?_, ?_⟩
  · intro p hp r hr
    have hb := plan32_some_bound file_size chunk_size chunk_num p hp
    rw [plan32_some_eq file_size chunk_size chunk_num hf hc p hp] at hr
    obtain ⟨h1, h2, h3, h4, -, -⟩ :=
      plan_ranges_wellformed_exact file_size chunk_size chunk_num hf hc r hr
    refine ⟨h1, h2, h3, h4, ?_, by omega, by omega⟩
    unfold getContentRange32
    rw [int32_of_mem _ (by omega) (by omega)]
    simp only [Option.some_bind]
    rw [int32_of_mem _ (by omega) (by omega)]
    simp only [Option.some_bind]
  · intro hfmax hcmax r hr
    by_cases hb : file_size + chunk_size - 1 ≤ 2147483647
    · rw [planWrap_exact file_size chunk_size chunk_num hf hc hb] at hr
      obtain ⟨h1, h2, h3, h4, -, -⟩ :=
        plan_ranges_wellformed_exact file_size chunk_size chunk_num hf hc r hr
      refine ⟨h1, h2, h3, h4, ?_, by omega, by omega⟩
      unfold getContentRangeWrap
      rw [wrap32_of_mem (r.1 + r.2) (by omega) (by omega),
        wrap32_of_mem (r.1 + r.2 - 1) (by omega) (by omega)]
    · rw [(planWrap_overflow file_size chunk_size chunk_num hf hc (by omega) (by omega)
        (by omega)).2] at hr
      exact absurd hr (List.not_mem_nil r)
  · intro hfmax hcmax hover
    refine ⟨(planWrap_overflow file_size chunk_size chunk_num hf hc (by omega) (by omega)
      (by omega)).2, ?_⟩
    rcases hp : plan32 file_size chunk_size chunk_num with _ | p
    · rfl
    · have := plan32_some_bound file_size chunk_size chunk_num p hp
      omega
  · intro hbound
    rw [plan32_exact file_size chunk_size chunk_num hf hc (by omega)]
    rfl

/-- C8 at `file_size = 5`, `chunk_size = 2`, all chunks requested. -/
theorem plan32_ranges_wellformed_witness :
    ((0 : Int) ≤ 5 ∧ (1 : Int) ≤ 2 ∧ plan32 5 2 0 = some [(0, 2), (2, 2), (4, 1)]) ∧
    ∀ r ∈ [((0 : Int), (2 : Int)), (2, 2), (4, 1)],
      0 ≤ r.1 ∧ 1 ≤ r.2 ∧ r.2 ≤ 2 ∧ r.1 + r.2 ≤ 5 ∧
      getContentRange32 r.1 r.2 = some (r.1, r.1 + r.2 - 1) ∧
      r.1 ≤ r.1 + r.2 - 1 ∧ r.1 + r.2 - 1 < 5 :=
  ⟨by decide,
    (plan32_ranges_wellformed 5 2 0 (by decide) (by decide)).1 [(0, 2), (2, 2), (4, 1)]
      (by decide)⟩

end MultiGet
namespace ThreadPool

/-! ## Worker pool: drain invariants -/

/-- Replacing the state of one worker moves at most one task in or out of the
tasks being executed. -/
theorem filterMap_set_perm (l : List WorkerState) : ∀ (i : Nat) (a b : WorkerState),
    l[i]? = some a →
    List.Perm ((executing a).toList ++ (l.set i b).filterMap executing)
      ((executing b).toList ++ l.filterMap executing) := by
  induction l with
  | nil => intro i a b h; simp at h
  | cons x xs ih =>
    intro i a b h
    cases i with
    | zero =>
      simp only [List.getElem?_cons_zero, Option.some.injEq] at h
      subst h
      simp only [List.set_cons_zero, List.filterMap_cons]
      cases hx : executing x <;> cases hb : executing b <;> simp [List.Perm.swap]
    | succ i =>
      simp only [List.getElem?_cons_succ] at h
      have := ih i a b h
      simp only [List.set_cons_succ, List.filterMap_cons]
      cases hx : executing x with
      | none => simpa using this
      | some t =>
        simp only
        refine (List.perm_middle).trans ?_
        refine List.Perm.trans ?_ (List.perm_middle).symm
        exact List.Perm.cons t this

/-- One enabled step keeps the drain invariant, the number of workers and the accounting of
tasks, provided an `Enqueue` is only made while `terminate` is not set. -/
theorem step_preserves (s s' : PoolState) (e : Event) (hstep : step s e = some s')
    (henq : ∀ t, e = Event.Enqueue t → s.terminate = false) (hinv : DrainInv s) :
    DrainInv s' ∧ s'.workers.length = s.workers.length ∧
    List.Perm (accounted s') (accounted s ++ enqueued [e]) := by
  cases e with
  | Enqueue t =>
    simp only [step, Option.some.injEq] at hstep
    subst hstep
    have hterm : s.terminate = false := henq t rfl
    refine ⟨?_, rfl, ?_⟩
    · intro hmem
      have := (hinv hmem).1
      rw [hterm] at this
      exact absurd this (by decide)
    · simp [accounted, enqueued]
  | ShutDown =>
    simp only [step, Option.some.injEq] at hstep
    subst hstep
    refine ⟨?_, rfl, ?_⟩
    · intro hmem
      exact ⟨rfl, (hinv hmem).2⟩
    · simp [accounted, enqueued]
  | InvokePop i =>
    simp only [step] at hstep
    split at hstep
    · rename_i t rest hw ht
      simp only [Option.some.injEq] at hstep
      subst hstep
      refine ⟨?_, by simp, ?_⟩
      · intro hmem
        simp only at hmem
        rcases List.mem_or_eq_of_mem_set hmem with h | h
        · have := (hinv h).2
          rw [ht] at this
          exact absurd this (by simp)
        · cases h
      · have hp := filterMap_set_perm s.workers i WorkerState.Idle (WorkerState.Executing t) hw
        simp only [executing, Option.toList, List.nil_append, List.singleton_append] at hp
        simp only [accounted, enqueued, List.append_nil, ht]
        refine List.Perm.append (List.Perm.append_left _ hp) (List.Perm.refl rest) |>.trans ?_
        simp only [List.append_assoc, List.cons_append]
        exact List.Perm.append_left _ (List.perm_middle.symm)
    · exact absurd hstep (by simp)
  | InvokeTaskDone i =>
    simp only [step] at hstep
    split at hstep
    · rename_i t hw
      simp only [Option.some.injEq] at hstep
      subst hstep
      refine ⟨?_, by simp, ?_⟩
      · intro hmem
        simp only at hmem
        rcases List.mem_or_eq_of_mem_set hmem with h | h
        · exact hinv h
        · cases h
      · have hp := filterMap_set_perm s.workers i (WorkerState.Executing t) WorkerState.Idle hw
        simp only [executing, Option.toList, List.nil_append, List.singleton_append] at hp
        simp only [accounted, enqueued, List.append_nil, List.append_assoc]
        refine List.Perm.append_left _ ?_
        simp only [List.singleton_append]
        exact List.Perm.append_right _ hp
    · exact absurd hstep (by simp)
  | InvokeReturn i =>
    simp only [step] at hstep
    split at hstep
    · rename_i hw
      split at hstep
      · rename_i hcond
        simp only [Option.some.injEq] at hstep
        subst hstep
        simp only [Bool.and_eq_true, List.isEmpty_iff] at hcond
        refine ⟨fun _ => ⟨hcond.1, hcond.2⟩, by simp, ?_⟩
        have hp := filterMap_set_perm s.workers i WorkerState.Idle WorkerState.Terminated hw
        simp only [executing, Option.toList, List.nil_append] at hp
        simp only [accounted, enqueued, List.append_nil]
        exact List.Perm.append_right _ (List.Perm.append_left _ hp)
      · exact absurd hstep (by simp)
    · exact absurd hstep (by simp)

end ThreadPool
namespace ThreadPool

/-- What a step does to `terminate`, and what is left of the `Enqueue` discipline. -/
theorem enqueueAllowed_step (s s' : PoolState) (e : Event) (es : List Event)
    (hstep : step s e = some s') (hallowed : enqueueAllowed s.terminate (e :: es) = true) :
    (∀ t, e = Event.Enqueue t → s.terminate = false) ∧
    enqueueAllowed s'.terminate es = true := by
  cases e with
  | Enqueue t =>
    simp only [step, Option.some.injEq] at hstep
    subst hstep
    simp only [enqueueAllowed, Bool.and_eq_true, Bool.not_eq_true'] at hallowed
    exact ⟨fun _ _ => hallowed.1, hallowed.2⟩
  | ShutDown =>
    simp only [step, Option.some.injEq] at hstep
    subst hstep
    simp only [enqueueAllowed] at hallowed
    exact ⟨fun _ h => Event.noConfusion h, hallowed⟩
  | InvokePop i =>
    simp only [step] at hstep
    split at hstep
    · simp only [Option.some.injEq] at hstep
      subst hstep
      simp only [enqueueAllowed] at hallowed
      exact ⟨fun _ h => Event.noConfusion h, hallowed⟩
    · exact absurd hstep (by simp)
  | InvokeTaskDone i =>
    simp only [step] at hstep
    split at hstep
    · simp only [Option.some.injEq] at hstep
      subst hstep
      simp only [enqueueAllowed] at hallowed
      exact ⟨fun _ h => Event.noConfusion h, hallowed⟩
    · exact absurd hstep (by simp)
  | InvokeReturn i =>
    simp only [step] at hstep
    split at hstep
    · split at hstep
      · simp only [Option.some.injEq] at hstep
        subst hstep
        simp only [enqueueAllowed] at hallowed
        exact ⟨fun _ h => Event.noConfusion h, hallowed⟩
      · exact absurd hstep (by simp)
    · exact absurd hstep (by simp)

theorem enqueued_cons (e : Event) (es : List Event) :
    enqueued (e :: es) = enqueued [e] ++ enqueued es := by
  cases e <;> simp [enqueued]

/-- A run of enabled steps keeps the drain invariant, the number of workers and the
accounting of tasks. -/
theorem run_preserves (es : List Event) : ∀ (s s' : PoolState), run s es = some s' →
    enqueueAllowed s.terminate es = true → DrainInv s →
    DrainInv s' ∧ s'.workers.length = s.workers.length ∧
    List.Perm (accounted s') (accounted s ++ enqueued es) := by
  induction es with
  | nil =>
    intro s s' hrun _ hinv
    simp only [run, Option.some.injEq] at hrun
    subst hrun
    exact ⟨hinv, rfl, by simp [enqueued]⟩
  | cons e es ih =>
    intro s s' hrun hallowed hinv
    simp only [run] at hrun
    rcases hstep : step s e with _ | s1
    · rw [hstep] at hrun
      exact absurd hrun (by simp)
    · rw [hstep] at hrun
      change run s1 es = some s' at hrun
      obtain ⟨henq, hrest⟩ := enqueueAllowed_step s s1 e es hstep hallowed
      obtain ⟨hinv1, hlen1, hperm1⟩ := step_preserves s s1 e hstep henq hinv
      obtain ⟨hinv', hlen', hperm'⟩ := ih s1 s' hrun hrest hinv1
      refine ⟨hinv', by rw [hlen', hlen1], ?_⟩
      rw [enqueued_cons, ← List.append_assoc]
      exact hperm'.trans (List.Perm.append_right _ hperm1)

/-- C6 as stated fails for a pool without workers: `ThreadPool(0)`, `Enqueue` of task 7,
`ShutDown`. `terminate` is set and every worker of the empty `threadPool` has been
joined, so `ShutDown` has returned, and task 7 is still in the queue and has not run. -/
theorem drain_incomplete_without_workers :
    enqueueBeforeShutDown stuckRun = true ∧
    run (construct 0) stuckRun = some stuckState ∧
    shutDownReturned stuckState = true ∧
    stuckState.tasks = [7] ∧ stuckState.ran = [] ∧
    ¬ (∀ (threads : Int) (es : List Event) (s : PoolState),
      run (construct threads) es = some s → enqueueBeforeShutDown es = true →
      shutDownReturned s = true → s.tasks = []) := by
  refine ⟨by decide, by decide, by decide, rfl, rfl, ?_⟩
  intro h
  have := h 0 stuckRun stuckState (by decide) (by decide) (by decide)
  exact absurd this (by decide)

/-- C6, amended. Drain completeness for a pool with at least one worker: for every run of
steps from the constructed pool in which every `Enqueue` is made before `ShutDown`, in a
state where `ShutDown` has returned (`terminate` set, every worker returned from `Invoke`)
the queue is empty, no worker is executing, and the tasks that have run are exactly the
enqueued tasks, each once. -/
theorem drain_complete (threads : Int) (hthreads : 1 ≤ threads) (es : List Event)
    (s : PoolState) (hrun : run (construct threads) es = some s)
    (hdisc : enqueueBeforeShutDown es = true) (hret : shutDownReturned s = true) :
    s.tasks = [] ∧ (∀ w ∈ s.workers, ∀ t, w ≠ WorkerState.Executing t) ∧
    List.Perm s.ran (enqueued es) := by
  have hinv0 : DrainInv (construct threads) := by
    intro hmem
    simp only [construct] at hmem
    have := List.eq_of_mem_replicate hmem
    cases this
  obtain ⟨hinv, hlen, hperm⟩ := run_preserves es (construct threads) s hrun hdisc hinv0
  simp only [shutDownReturned, Bool.and_eq_true, List.all_eq_true, decide_eq_true_eq] at hret
  obtain ⟨-, hall⟩ := hret
  have hlen' : s.workers.length = threads.toNat := by
    rw [hlen]; simp [construct]
  have hne : s.workers ≠ [] := by
    intro h
    rw [h] at hlen'
    simp only [List.length_nil] at hlen'
    omega
  obtain ⟨w, hw⟩ := List.exists_mem_of_ne_nil _ hne
  have hterm : WorkerState.Terminated ∈ s.workers := by
    have := hall w hw
    rwa [this] at hw
  have hexec : s.workers.filterMap executing = [] := by
    rw [List.filterMap_eq_nil_iff]
    intro x hx
    rw [hall x hx]
    rfl
  refine ⟨(hinv hterm).2, ?_, ?_⟩
  · intro x hx t hxt
    rw [hall x hx] at hxt
    cases hxt
  · simp only [accounted, hexec, (hinv hterm).2, construct, List.append_nil,
      List.filterMap_replicate, List.nil_append] at hperm
    simpa [executing] using hperm

/-- C6, amended, on a pool of one worker: a task is enqueued, `ShutDown` is called, the
worker pops the task, runs it, and returns. -/
theorem drain_complete_witness :
    ((1 : Int) ≤ 1 ∧ run (construct 1) drainRun = some drainState ∧
      enqueueBeforeShutDown drainRun = true ∧ shutDownReturned drainState = true) ∧
    (drainState.tasks = [] ∧
      (∀ w ∈ drainState.workers, ∀ t, w ≠ WorkerState.Executing t) ∧
      List.Perm drainState.ran (enqueued drainRun)) :=
  ⟨⟨by decide, by decide, by decide, by decide⟩,
    drain_complete 1 (by decide) drainRun drainState (by decide) (by decide) (by decide)⟩

end ThreadPool
namespace ThreadPool

/-! ## `ShutDown` twice -/

theorem joinAll_joinable (n : Nat) :
    joinAll (List.replicate n true) = Except.ok (List.replicate n false) := by
  induction n with
  | zero => rfl
  | succ n ih => simp [List.replicate_succ, joinAll, join, ih]

theorem joinAll_joined (n : Nat) :
    joinAll (List.replicate (n + 1) false) = Except.error Error.system_error := by
  simp [List.replicate_succ, joinAll, join]

/-- For every pool with at least one worker the second of two `ShutDown` calls joins a
thread the first call has joined, and throws. -/
theorem shutDownTwice_throws (threads : Int) (h : 1 ≤ threads) :
    shutDownTwice (Handles.construct threads) = Except.error Error.system_error := by
  obtain ⟨n, hn⟩ : ∃ n : Nat, threads.toNat = n + 1 := ⟨threads.toNat - 1, by omega⟩
  simp [shutDownTwice, ShutDown, Handles.construct, hn, joinAll_joinable, joinAll_joined]

/-- C7 on the code, at the pool `main` builds (`THREAD_NUM = 4`): the first `ShutDown`
completes and leaves the four joined threads in `threadPool`; a second `ShutDown` calls
`join` on the first of them and throws `std::system_error`; the destructor after an
explicit `ShutDown` joins nothing. -/
theorem shutDown_twice_double_joins :
    ShutDown (Handles.construct 4)
      = Except.ok { threadPool := [false, false, false, false], terminate := true,
                    stopped := true } ∧
    shutDownTwice (Handles.construct 4) = Except.error Error.system_error ∧
    destructor { threadPool := [false, false, false, false], terminate := true,
                 stopped := true }
      = Except.ok { threadPool := [false, false, false, false], terminate := true,
                    stopped := true } := by
  refine ⟨rfl, rfl, rfl⟩

end ThreadPool
namespace CommandLineParams

/-! ## The documented invocation -/

theorem construct_documented (url : String) (hopt : isOption url = false) :
    construct (documentedArgv url) = [("u", url)] := by
  have h1 : isOption "-u" = true := by decide
  have h2 : dropFirst "-u" = "u" := by decide
  simp [construct, documentedArgv, parseLoop, h1, h2, hopt, assign]

/-- C9 on the code: for every `url` that does not begin with `-` or `/`, parsing
`MultiGet -u url` stores the URL under the key `u`; the check of `main` looks for the key
`url`, does not find it, and `main` takes the missing-URL branch and returns `-1`. -/
theorem documented_invocation_rejected (url : String) (hopt : isOption url = false) :
    construct (documentedArgv url) = [("u", url)] ∧
    ContainsKey (construct (documentedArgv url)) "url" = false ∧
    mainUrl (documentedArgv url) = Except.error (-1) := by
  have hc := construct_documented url hopt
  have hk : ContainsKey [("u", url)] "url" = false := by
    simp [ContainsKey, List.lookup]
  refine ⟨hc, ?_, ?_⟩
  · rw [hc]; exact hk
  · simp [mainUrl, hc, hk]

/-- C9 on the code at `MultiGet -u http://example.com/384MB.jar`. -/
theorem documented_invocation_rejected_witness :
    isOption "http://example.com/384MB.jar" = false ∧
    (construct (documentedArgv "http://example.com/384MB.jar")
        = [("u", "http://example.com/384MB.jar")] ∧
      ContainsKey (construct (documentedArgv "http://example.com/384MB.jar")) "url" = false ∧
      mainUrl (documentedArgv "http://example.com/384MB.jar") = Except.error (-1)) :=
  ⟨by decide, documented_invocation_rejected "http://example.com/384MB.jar" (by decide)⟩

/-- The spelling that passes the check of `main` is `-url`. -/
theorem url_option_accepted :
    mainUrl ["MultiGet", "-url", "http://example.com/384MB.jar"]
      = Except.ok (some "http://example.com/384MB.jar") := by
  rfl

end CommandLineParams
